import Mathlib

/-!
Verification of the PuzzleSolver search core (`puzzle_tools.py`) and the
sliding-tile puzzle (`mn_puzzle.py`).

The Python code is duck-typed: the two drivers consume any object providing
`extensions()`, `is_solved()`, `fail_fast()` and `str()` (the canonical
render used for deduplication).  We embed this contract as a structure of
functions over an abstract state type `σ` with key type `K` (Python uses
`str` keys; keeping `K` abstract lets concrete instances use any decidable
key type representing the rendered string).
-/

namespace PuzzleSolver

variable {σ K : Type}

/-- The puzzle contract consumed by the drivers.  Fields mirror the methods
of the Python `Puzzle` interface.  The base class file is absent from the
sources; per the spec the contract is exactly these four operations.
`fail_fast` default — Modelled from the spec: the base `Puzzle.fail_fast`
(file `puzzle.py`, missing from the sources) defaults to false (never prune)
when a variant does not override it, so the structure field carries that
default. -/

structure PuzzleImpl (σ K : Type) where
  extensions : σ → List σ
  is_solved : σ → Bool
  fail_fast : σ → Bool := fun _ => false
  render : σ → K

/-- A search node: one puzzle state plus the chain of ancestor states
(parent first, root last).  This models `PuzzleNode`'s `puzzle` field and
its `parent` back-reference chain; during traversal the Python `children`
field stays empty, so it is omitted here and only appears in the
reconstruction output type `PTree`. -/

structure PNode (σ : Type) where
  puzzle : σ
  ancestors : List σ
deriving DecidableEq

/-- `PuzzleNode(puzzle, None, None)`: the root node of a search. -/

def rootNode {σ : Type} (p : σ) : PNode σ := ⟨p, []⟩

/-- Depth of a node: number of moves from the root. -/

def PNode.depth {σ : Type} (n : PNode σ) : Nat := n.ancestors.length

/-- The `dfs` loop of `puzzle_tools.py`, fuel-indexed.  The stack is a list
with its head as the top (Python `list.append`/`list.pop` work at the same
end).  Python appends the extensions in order and pops the last pushed, so
with head-as-top the filtered extension nodes are pushed reversed.  `none`
means the fuel ran out before the loop finished; `some none` is the Python
`return None` (frontier exhausted); `some (some n)` returns the solved
node. -/

def dfsRun (P : PuzzleImpl σ K) [DecidableEq K] :
    Nat → List (PNode σ) → List K → Option (Option (PNode σ))
  | 0, _, _ => none
  | fuel + 1, stack, visited =>
    match stack with
    | [] => some none
    | node :: rest =>
      let key := P.render node.puzzle
      if key ∈ visited then
        dfsRun P fuel rest visited
      else
        let visited' := key :: visited
        if P.is_solved node.puzzle then
          some (some node)
        else if P.fail_fast node.puzzle then
          dfsRun P fuel rest visited'
        else
          dfsRun P fuel
            ((((P.extensions node.puzzle).filter
                (fun e => decide (P.render e ∉ visited'))).map
                (fun e => PNode.mk e (node.puzzle :: node.ancestors))).reverse
              ++ rest)
            visited'

/-- The `bfs` loop of `puzzle_tools.py`.  The Python deque is popped at the
right and extended with `appendleft`, i.e. a FIFO queue; we keep the list
head as the pop end, so enqueueing appends the extension nodes (in
extension order) at the tail. -/

def bfsRun (P : PuzzleImpl σ K) [DecidableEq K] :
    Nat → List (PNode σ) → List K → Option (Option (PNode σ))
  | 0, _, _ => none
  | fuel + 1, queue, visited =>
    match queue with
    | [] => some none
    | node :: rest =>
      let key := P.render node.puzzle
      if key ∈ visited then
        bfsRun P fuel rest visited
      else
        let visited' := key :: visited
        if P.is_solved node.puzzle then
          some (some node)
        else if P.fail_fast node.puzzle then
          bfsRun P fuel rest visited'
        else
          bfsRun P fuel
            (rest ++
              ((P.extensions node.puzzle).filter
                (fun e => decide (P.render e ∉ visited'))).map
                (fun e => PNode.mk e (node.puzzle :: node.ancestors)))
            visited'

/-- The tree shape returned to the caller: a state and a list of child
trees, mirroring `PuzzleNode`'s `puzzle` and `children` fields. -/

inductive PTree (σ : Type) where
  | mk : σ → List (PTree σ) → PTree σ

/-- `reconstruct_path` walks from the solved node upward, setting each
predecessor's children to the singleton containing the current node; the
result visible to the caller is the root tree whose successor collections
are all singletons.  `reconstructFrom t anc` grafts the already-built
subtree `t` under the chain of ancestors `anc` (parent first). -/

def reconstructFrom (t : PTree σ) : List σ → PTree σ
  | [] => t
  | a :: rest => reconstructFrom (PTree.mk a [t]) rest

/-- The root tree produced by `reconstruct_path(node)`: the solved node
keeps its (empty) children, each ancestor's children become the singleton
of its descendant on the path. -/

def reconstruct_path (n : PNode σ) : PTree σ :=
  reconstructFrom (PTree.mk n.puzzle []) n.ancestors

/-- The chain of states read off a returned tree by following the
successor collections (first child at each level): the ordered sequence of
states the spec calls the solution chain. -/

def spine : PTree σ → List σ
  | PTree.mk s [] => [s]
  | PTree.mk s (c :: _) => s :: spine c

/-- `depth_first_solve`: wrap the puzzle in a root node, run `dfs`, on
success reconstruct and return the root tree, otherwise return `None`.
The outer `Option` is fuel exhaustion. -/

def depth_first_solve (P : PuzzleImpl σ K) [DecidableEq K] (fuel : Nat) (p : σ) :
    Option (Option (PTree σ)) :=
  match dfsRun P fuel [rootNode p] [] with
  | none => none
  | some none => some none
  | some (some n) => some (some (reconstruct_path n))

/-- `breadth_first_solve`: same wrapper around `bfs`. -/

def breadth_first_solve (P : PuzzleImpl σ K) [DecidableEq K] (fuel : Nat) (p : σ) :
    Option (Option (PTree σ)) :=
  match bfsRun P fuel [rootNode p] [] with
  | none => none
  | some none => some none
  | some (some n) => some (some (reconstruct_path n))

/-- States reachable from `r` in exactly `d` moves (with multiplicity):
`d` applications of the successor function. -/

def reachIn (P : PuzzleImpl σ K) (r : σ) : Nat → List σ
  | 0 => [r]
  | d + 1 => (reachIn P r d).flatMap P.extensions

/-- `IsChainTo P r s anc`: `s` preceded by ancestor chain `anc` (parent
first) is a genuine move path starting at root `r`. -/

def IsChainTo (P : PuzzleImpl σ K) (r : σ) : σ → List σ → Prop
  | s, [] => s = r
  | s, a :: rest => s ∈ P.extensions a ∧ IsChainTo P r a rest

/-- The path of states recorded in a node, ordered root first. -/

def chainOf (n : PNode σ) : List σ := (n.puzzle :: n.ancestors).reverse



/-- Node-path well-formedness towards the visited set: every ancestor key
is already visited and the ancestor keys are pairwise distinct. -/

def AncOk (P : PuzzleImpl σ K) (vis : List K) (m : PNode σ) : Prop :=
  (∀ a ∈ m.ancestors, P.render a ∈ vis) ∧ (m.ancestors.map P.render).Nodup



/-- Level structure of the breadth-first frontier: the queue splits into a
level-`D` part `qa` followed by a level-`D+1` part `qb`; all states at
distance below `D` are visited, and every state at distance `D` is visited
or still sits (as a depth-`D` node) in `qa`. -/

structure BfsLevels (P : PuzzleImpl σ K) (r : σ) (vis : List K) (D : Nat)
    (qa qb : List (PNode σ)) : Prop where
  depthA : ∀ n ∈ qa, n.ancestors.length = D
  depthB : ∀ n ∈ qb, n.ancestors.length = D + 1
  degenerate : qa = [] → qb = []
  closedBelow : ∀ d s, d < D → s ∈ reachIn P r d → P.render s ∈ vis
  frontierAt : ∀ s, s ∈ reachIn P r D → P.render s ∈ vis ∨ ∃ m ∈ qa, m.puzzle = s

/-- The loop invariant of the breadth-first driver: frontier nodes carry
genuine move paths, the frontier spans at most two consecutive levels, and
every visited key belongs to an unsolved state all of whose successors are
visited or still on the frontier. -/

structure BfsInv (P : PuzzleImpl σ K) (r : σ) (q : List (PNode σ)) (vis : List K) :
    Prop where
  chains : ∀ n ∈ q, IsChainTo P r n.puzzle n.ancestors
  levels : ∃ D qa qb, q = qa ++ qb ∧ BfsLevels P r vis D qa qb
  visOk : ∀ k ∈ vis, ∃ s, P.render s = k ∧ P.is_solved s = false ∧
    ∀ e ∈ P.extensions s, P.render e ∈ vis ∨ ∃ m ∈ q, m.puzzle = e






/-- Ghost events recording, in order, each evaluation of `is_solved` and
`fail_fast` (with its result) and each call of `extensions`, all tagged
with the canonical key of the state they were invoked on. -/

inductive SearchEvt (K : Type) where
  | evalSolved : K → Bool → SearchEvt K
  | evalFailFast : K → Bool → SearchEvt K
  | callExtensions : K → SearchEvt K
deriving DecidableEq

/-- Keys on which `is_solved` was evaluated, in order. -/

def solvedKeys (log : List (SearchEvt K)) : List K :=
  log.filterMap (fun evt =>
    match evt with
    | SearchEvt.evalSolved k _ => some k
    | _ => none)

/-- Keys on which `fail_fast` was evaluated, in order. -/

def ffKeys (log : List (SearchEvt K)) : List K :=
  log.filterMap (fun evt =>
    match evt with
    | SearchEvt.evalFailFast k _ => some k
    | _ => none)

/-- Keys on which `extensions` was called, in order. -/

def extKeys (log : List (SearchEvt K)) : List K :=
  log.filterMap (fun evt =>
    match evt with
    | SearchEvt.callExtensions k => some k
    | _ => none)

/-- The `dfs` loop instrumented with the ghost event log; it also returns
the final visited set.  Apart from the bookkeeping it is the same
computation as `dfsRun`. -/

def dfsRunT (P : PuzzleImpl σ K) [DecidableEq K] :
    Nat → List (PNode σ) → List K → List (SearchEvt K) →
      Option (Option (PNode σ)) × List K × List (SearchEvt K)
  | 0, _, vis, log => (none, vis, log)
  | fuel + 1, stack, vis, log =>
    match stack with
    | [] => (some none, vis, log)
    | node :: rest =>
      let key := P.render node.puzzle
      if key ∈ vis then
        dfsRunT P fuel rest vis log
      else
        let vis' := key :: vis
        let log1 := log ++ [SearchEvt.evalSolved key (P.is_solved node.puzzle)]
        if P.is_solved node.puzzle then
          (some (some node), vis', log1)
        else
          let log2 := log1 ++ [SearchEvt.evalFailFast key (P.fail_fast node.puzzle)]
          if P.fail_fast node.puzzle then
            dfsRunT P fuel rest vis' log2
          else
            dfsRunT P fuel
              ((((P.extensions node.puzzle).filter
                  (fun e => decide (P.render e ∉ vis'))).map
                  (fun e => PNode.mk e (node.puzzle :: node.ancestors))).reverse
                ++ rest)
              vis' (log2 ++ [SearchEvt.callExtensions key])

/-- The `bfs` loop instrumented with the ghost event log. -/

def bfsRunT (P : PuzzleImpl σ K) [DecidableEq K] :
    Nat → List (PNode σ) → List K → List (SearchEvt K) →
      Option (Option (PNode σ)) × List K × List (SearchEvt K)
  | 0, _, vis, log => (none, vis, log)
  | fuel + 1, queue, vis, log =>
    match queue with
    | [] => (some none, vis, log)
    | node :: rest =>
      let key := P.render node.puzzle
      if key ∈ vis then
        bfsRunT P fuel rest vis log
      else
        let vis' := key :: vis
        let log1 := log ++ [SearchEvt.evalSolved key (P.is_solved node.puzzle)]
        if P.is_solved node.puzzle then
          (some (some node), vis', log1)
        else
          let log2 := log1 ++ [SearchEvt.evalFailFast key (P.fail_fast node.puzzle)]
          if P.fail_fast node.puzzle then
            bfsRunT P fuel rest vis' log2
          else
            bfsRunT P fuel
              (rest ++
                ((P.extensions node.puzzle).filter
                  (fun e => decide (P.render e ∉ vis'))).map
                  (fun e => PNode.mk e (node.puzzle :: node.ancestors)))
              vis' (log2 ++ [SearchEvt.callExtensions key])

/-- Wellformedness of the ghost log against the visited set: every logged
key is visited and logged at most once per operation, `fail_fast` is only
evaluated on keys whose `is_solved` evaluation returned false, `extensions`
is only called on keys whose `fail_fast` evaluation returned false, and a
true `fail_fast` excludes any `extensions` call on that key. -/

structure LogInv (vis : List K) (log : List (SearchEvt K)) : Prop where
  nodupS : (solvedKeys log).Nodup
  nodupF : (ffKeys log).Nodup
  nodupX : (extKeys log).Nodup
  memS : ∀ k ∈ solvedKeys log, k ∈ vis
  memF : ∀ k ∈ ffKeys log, k ∈ vis
  memX : ∀ k ∈ extKeys log, k ∈ vis
  ordFS : ∀ k b, SearchEvt.evalFailFast k b ∈ log → SearchEvt.evalSolved k false ∈ log
  ordXF : ∀ k, SearchEvt.callExtensions k ∈ log → SearchEvt.evalFailFast k false ∈ log
  pruneStops : ∀ k, SearchEvt.evalFailFast k true ∈ log → SearchEvt.callExtensions k ∉ log











end PuzzleSolver

namespace MN

/-- A grid as in `mn_puzzle.py`: a tuple of tuples of one-character
symbols, embedded as a list of rows of characters. -/

abbrev Grid := List (List Char)

/-- The sliding-tile puzzle state: current configuration and solution
configuration. -/

structure MNPuzzle where
  from_grid : Grid
  to_grid : Grid
deriving DecidableEq

/-- `self.n`: number of rows of the current configuration. -/

def MNPuzzle.n (p : MNPuzzle) : Nat := p.from_grid.length

/-- `self.m`: number of columns, the length of the first row
(`len(from_grid[0])`). -/

def MNPuzzle.m (p : MNPuzzle) : Nat := (p.from_grid.headD []).length

/-- `equal_grids`: `all([a == b for a, b in zip(grid1, grid2)])` — rows are
compared pairwise up to the length of the shorter grid. -/

def equal_grids (grid1 grid2 : Grid) : Bool :=
  (grid1.zip grid2).all (fun ab => ab.1 == ab.2)

/-- `MNPuzzle.__eq__` (between two `MNPuzzle`s; the `type` guard is the
typing of the embedding). -/

def MNPuzzle.eq (p other : MNPuzzle) : Bool :=
  equal_grids p.from_grid other.from_grid && equal_grids p.to_grid other.to_grid

/-- `MNPuzzle.is_solved`: the current grid equals the target grid under
`equal_grids`. -/

def MNPuzzle.is_solved (p : MNPuzzle) : Bool :=
  equal_grids p.from_grid p.to_grid

/-- `MNPuzzle.__str__`: rows joined by a newline; the canonical render key
is embedded as the joined character sequence of that string. -/

def renderGrid (g : Grid) : List Char :=
  match g with
  | [] => []
  | row :: rest =>
    match rest with
    | [] => row
    | _ :: _ => row ++ Char.ofNat 10 :: renderGrid rest

/-- `find_first(grid, elem)`: position of the first `elem`, scanning rows
in order and taking `t.index(elem)` in the first row containing it;
`None` when absent. -/

def find_first (grid : Grid) (elem : Char) : Option (Nat × Nat) :=
  go 0 grid
where
  go : Nat → Grid → Option (Nat × Nat)
    | _, [] => none
    | row, t :: rest =>
      match t.indexOf? elem with
      | some column => some (row, column)
      | none => go (row + 1) rest

/-- `is_valid_location(location, rows, columns)`: both coordinates lie in
the `rows` by `columns` range.  Coordinates are integers because the
candidate positions may be negative. -/

def is_valid_location (location : Int × Int) (rows columns : Nat) : Bool :=
  decide (0 ≤ location.1 ∧ location.1 < (rows : Int) ∧
    0 ≤ location.2 ∧ location.2 < (columns : Int))

/-- Read one cell of a grid (total: out-of-range reads give a space, which
never occurs where the code's preconditions hold). -/

def get2d (g : Grid) (rc : Nat × Nat) : Char :=
  ((g.getD rc.1 []).getD rc.2 ' ')

/-- Write one cell of a grid (`List.set` leaves out-of-range writes
without effect, like the code's preconditions guarantee never happens). -/

def set2d (g : Grid) (rc : Nat × Nat) (v : Char) : Grid :=
  g.set rc.1 ((g.getD rc.1 []).set rc.2 v)

/-- The inner `swap(empty, symbol)` of `extensions`: the empty cell takes
the symbol, the symbol cell becomes the star, yielding a new puzzle with
the same target grid. -/

def MNPuzzle.swap (p : MNPuzzle) (empty symbol : Nat × Nat) : MNPuzzle :=
  let grid := set2d (set2d p.from_grid empty (get2d p.from_grid symbol)) symbol '*'
  ⟨grid, p.to_grid⟩

/-- `MNPuzzle.extensions`: locate the first `*`; candidate swap positions
are right, left, below, above; keep the in-grid ones; swap each with the
star.  When the grid has no `*`, `find_first` yields `None` and the Python
code indexes it (`empty[0]`), raising; the embedding returns `none` for
that error. -/

def MNPuzzle.extensions (p : MNPuzzle) : Option (List MNPuzzle) :=
  match find_first p.from_grid '*' with
  | none => none
  | some empty =>
    let row := empty.1
    let col := empty.2
    let candidates : List (Int × Int) :=
      [((row : Int), (col : Int) + 1), ((row : Int), (col : Int) - 1),
        ((row : Int) + 1, (col : Int)), ((row : Int) - 1, (col : Int))]
    let valid_swap_locations :=
      candidates.filter (fun c => is_valid_location c p.n p.m)
    some (valid_swap_locations.map
      (fun c => p.swap empty (c.1.toNat, c.2.toNat)))

/-- The puzzle-contract instance for `MNPuzzle` used by the drivers:
`fail_fast` is not overridden (the default applies) and the successor list
is the computed extension list (the scenarios below only ever reach grids
containing a star, where no error arises). -/

def mnImpl : PuzzleSolver.PuzzleImpl MNPuzzle (List Char) where
  extensions := fun p => (MNPuzzle.extensions p).getD []
  is_solved := MNPuzzle.is_solved
  render := fun p => renderGrid p.from_grid

/-- The four candidate swap positions around a star location: right, left,
below, above (in the order of the source). -/

def mnCandidates (rc : Nat × Nat) : List (Int × Int) :=
  [((rc.1 : Int), (rc.2 : Int) + 1), ((rc.1 : Int), (rc.2 : Int) - 1),
    ((rc.1 : Int) + 1, (rc.2 : Int)), ((rc.1 : Int) - 1, (rc.2 : Int))]

/-- The in-grid candidates among the four. -/

def mnValid (p : MNPuzzle) (rc : Nat × Nat) : List (Int × Int) :=
  (mnCandidates rc).filter (fun c => is_valid_location c p.n p.m)

/-- Scenario A of the spec: initial grid `*23/145`, goal grid `123/45*`. -/
def startP : MNPuzzle :=
  ⟨[['*', '2', '3'], ['1', '4', '5']], [['1', '2', '3'], ['4', '5', '*']]⟩




end MN

namespace PuzzleSolver

/-- A two-state puzzle over `Nat` states and keys: `0` extends to the
solved state `1`; identity render; `fail_fast` not overridden (the
structure default applies). -/
def toyOK : PuzzleImpl Nat Nat where
  extensions := fun s => if s = 0 then [1] else []
  is_solved := fun s => s == 1
  render := id

/-- A puzzle whose `fail_fast` is an unsound over-approximation: state `1`
is pruned although it leads to the solved state `3` at depth two, while
the only other solved state `5` sits at depth three. -/
def toyBad : PuzzleImpl Nat Nat where
  extensions := fun s =>
    if s = 0 then [1, 2] else if s = 1 then [3]
    else if s = 2 then [4] else if s = 4 then [5] else []
  is_solved := fun s => s == 3 || s == 5
  fail_fast := fun s => s == 1
  render := id

/-- An unsolved puzzle with no successors at all. -/
def toyStuck : PuzzleImpl Nat Nat where
  extensions := fun _ => []
  is_solved := fun _ => false
  render := id

end PuzzleSolver


namespace PuzzleSolver

variable {σ K : Type}

theorem spine_reconstructFrom (t : PTree σ) (anc : List σ) :
    spine (reconstructFrom t anc) = anc.reverse ++ spine t := by
  induction anc generalizing t with
  | nil => simp [reconstructFrom]
  | cons a rest ih => simp [reconstructFrom, ih, spine]

theorem spine_reconstruct_path (n : PNode σ) :
    spine (reconstruct_path n) = chainOf n := by
  simp [reconstruct_path, spine_reconstructFrom, spine, chainOf]

theorem length_spine_reconstruct_path (n : PNode σ) :
    (spine (reconstruct_path n)).length = n.ancestors.length + 1 := by
  simp [spine_reconstruct_path, chainOf]

theorem IsChainTo.getLast_eq {P : PuzzleImpl σ K} {r s : σ} {anc : List σ}
    (h : IsChainTo P r s anc) : (s :: anc).getLast? = some r := by
  induction anc generalizing s with
  | nil => simpa [IsChainTo] using h
  | cons a rest ih =>
    rw [List.getLast?_cons_cons]
    exact ih h.2

theorem IsChainTo.mem_reachIn {P : PuzzleImpl σ K} {r s : σ} {anc : List σ}
    (h : IsChainTo P r s anc) : s ∈ reachIn P r anc.length := by
  induction anc generalizing s with
  | nil => simpa [IsChainTo, reachIn] using h
  | cons a rest ih =>
    simp only [List.length_cons, reachIn, List.mem_flatMap]
    exact ⟨a, ih h.2, h.1⟩

theorem dfsRun_sound (P : PuzzleImpl σ K) [DecidableEq K] (r : σ) :
    ∀ (fuel : Nat) (stack : List (PNode σ)) (vis : List K) (n : PNode σ),
      (∀ m ∈ stack, IsChainTo P r m.puzzle m.ancestors) →
      dfsRun P fuel stack vis = some (some n) →
      P.is_solved n.puzzle = true ∧ IsChainTo P r n.puzzle n.ancestors := by
  intro fuel
  induction fuel with
  | zero => intro stack vis n _ hrun; simp [dfsRun] at hrun
  | succ fuel ih =>
    intro stack vis n hch hrun
    cases stack with
    | nil => simp [dfsRun] at hrun
    | cons node rest =>
      simp only [dfsRun] at hrun
      by_cases hk : P.render node.puzzle ∈ vis
      · rw [if_pos hk] at hrun
        exact ih rest vis n (fun m hm => hch m (List.mem_cons_of_mem _ hm)) hrun
      · rw [if_neg hk] at hrun
        by_cases hs : P.is_solved node.puzzle
        · rw [if_pos hs] at hrun
          obtain rfl : node = n := by simpa using hrun
          exact ⟨hs, hch node (List.mem_cons_self _ _)⟩
        · rw [if_neg hs] at hrun
          by_cases hf : P.fail_fast node.puzzle
          · rw [if_pos hf] at hrun
            exact ih rest _ n (fun m hm => hch m (List.mem_cons_of_mem _ hm)) hrun
          · rw [if_neg hf] at hrun
            refine ih _ _ n ?_ hrun
            intro m hm
            rcases List.mem_append.1 hm with hm | hm
            · rcases List.mem_map.1 (List.mem_reverse.1 hm) with ⟨e, he, rfl⟩
              exact ⟨List.mem_of_mem_filter he,
                hch node (List.mem_cons_self _ _)⟩
            · exact hch m (List.mem_cons_of_mem _ hm)

theorem bfsRun_sound (P : PuzzleImpl σ K) [DecidableEq K] (r : σ) :
    ∀ (fuel : Nat) (queue : List (PNode σ)) (vis : List K) (n : PNode σ),
      (∀ m ∈ queue, IsChainTo P r m.puzzle m.ancestors) →
      bfsRun P fuel queue vis = some (some n) →
      P.is_solved n.puzzle = true ∧ IsChainTo P r n.puzzle n.ancestors := by
  intro fuel
  induction fuel with
  | zero => intro queue vis n _ hrun; simp [bfsRun] at hrun
  | succ fuel ih =>
    intro queue vis n hch hrun
    cases queue with
    | nil => simp [bfsRun] at hrun
    | cons node rest =>
      simp only [bfsRun] at hrun
      by_cases hk : P.render node.puzzle ∈ vis
      · rw [if_pos hk] at hrun
        exact ih rest vis n (fun m hm => hch m (List.mem_cons_of_mem _ hm)) hrun
      · rw [if_neg hk] at hrun
        by_cases hs : P.is_solved node.puzzle
        · rw [if_pos hs] at hrun
          obtain rfl : node = n := by simpa using hrun
          exact ⟨hs, hch node (List.mem_cons_self _ _)⟩
        · rw [if_neg hs] at hrun
          by_cases hf : P.fail_fast node.puzzle
          · rw [if_pos hf] at hrun
            exact ih rest _ n (fun m hm => hch m (List.mem_cons_of_mem _ hm)) hrun
          · rw [if_neg hf] at hrun
            refine ih _ _ n ?_ hrun
            intro m hm
            rcases List.mem_append.1 hm with hm | hm
            · exact hch m (List.mem_cons_of_mem _ hm)
            · rcases List.mem_map.1 hm with ⟨e, he, rfl⟩
              exact ⟨List.mem_of_mem_filter he,
                hch node (List.mem_cons_self _ _)⟩

theorem AncOk.mono {P : PuzzleImpl σ K} {vis vis' : List K} {m : PNode σ}
    (hsub : ∀ k ∈ vis, k ∈ vis') (h : AncOk P vis m) : AncOk P vis' m :=
  ⟨fun a ha => hsub _ (h.1 a ha), h.2⟩

theorem dfsRun_nodup (P : PuzzleImpl σ K) [DecidableEq K] :
    ∀ (fuel : Nat) (stack : List (PNode σ)) (vis : List K) (n : PNode σ),
      (∀ m ∈ stack, AncOk P vis m) →
      dfsRun P fuel stack vis = some (some n) →
      ((chainOf n).map P.render).Nodup := by
  intro fuel
  induction fuel with
  | zero => intro stack vis n _ hrun; simp [dfsRun] at hrun
  | succ fuel ih =>
    intro stack vis n hinv hrun
    cases stack with
    | nil => simp [dfsRun] at hrun
    | cons node rest =>
      simp only [dfsRun] at hrun
      by_cases hk : P.render node.puzzle ∈ vis
      · rw [if_pos hk] at hrun
        exact ih rest vis n (fun m hm => hinv m (List.mem_cons_of_mem _ hm)) hrun
      · rw [if_neg hk] at hrun
        by_cases hs : P.is_solved node.puzzle
        · rw [if_pos hs] at hrun
          obtain rfl : node = n := by simpa using hrun
          have h := hinv node (List.mem_cons_self _ _)
          simp only [chainOf, List.map_reverse, List.nodup_reverse,
            List.map_cons, List.nodup_cons]
          refine ⟨fun hmem => ?_, h.2⟩
          rcases List.mem_map.1 hmem with ⟨a, ha, hra⟩
          exact hk (hra ▸ h.1 a ha)
        · rw [if_neg hs] at hrun
          by_cases hf : P.fail_fast node.puzzle
          · rw [if_pos hf] at hrun
            refine ih rest _ n (fun m hm => ?_) hrun
            exact (hinv m (List.mem_cons_of_mem _ hm)).mono
              (fun k hkv => List.mem_cons_of_mem _ hkv)
          · rw [if_neg hf] at hrun
            refine ih _ _ n ?_ hrun
            intro m hm
            rcases List.mem_append.1 hm with hm | hm
            · rcases List.mem_map.1 (List.mem_reverse.1 hm) with ⟨e, _, rfl⟩
              have h := hinv node (List.mem_cons_self _ _)
              constructor
              · intro a ha
                rcases List.mem_cons.1 ha with rfl | ha
                · exact List.mem_cons_self _ _
                · exact List.mem_cons_of_mem _ (h.1 a ha)
              · simp only [List.map_cons, List.nodup_cons]
                refine ⟨fun hmem => ?_, h.2⟩
                rcases List.mem_map.1 hmem with ⟨a, ha, hra⟩
                exact hk (hra ▸ h.1 a ha)
            · exact (hinv m (List.mem_cons_of_mem _ hm)).mono
                (fun k hkv => List.mem_cons_of_mem _ hkv)

theorem bfsRun_nodup (P : PuzzleImpl σ K) [DecidableEq K] :
    ∀ (fuel : Nat) (queue : List (PNode σ)) (vis : List K) (n : PNode σ),
      (∀ m ∈ queue, AncOk P vis m) →
      bfsRun P fuel queue vis = some (some n) →
      ((chainOf n).map P.render).Nodup := by
  intro fuel
  induction fuel with
  | zero => intro queue vis n _ hrun; simp [bfsRun] at hrun
  | succ fuel ih =>
    intro queue vis n hinv hrun
    cases queue with
    | nil => simp [bfsRun] at hrun
    | cons node rest =>
      simp only [bfsRun] at hrun
      by_cases hk : P.render node.puzzle ∈ vis
      · rw [if_pos hk] at hrun
        exact ih rest vis n (fun m hm => hinv m (List.mem_cons_of_mem _ hm)) hrun
      · rw [if_neg hk] at hrun
        by_cases hs : P.is_solved node.puzzle
        · rw [if_pos hs] at hrun
          obtain rfl : node = n := by simpa using hrun
          have h := hinv node (List.mem_cons_self _ _)
          simp only [chainOf, List.map_reverse, List.nodup_reverse,
            List.map_cons, List.nodup_cons]
          refine ⟨fun hmem => ?_, h.2⟩
          rcases List.mem_map.1 hmem with ⟨a, ha, hra⟩
          exact hk (hra ▸ h.1 a ha)
        · rw [if_neg hs] at hrun
          by_cases hf : P.fail_fast node.puzzle
          · rw [if_pos hf] at hrun
            refine ih rest _ n (fun m hm => ?_) hrun
            exact (hinv m (List.mem_cons_of_mem _ hm)).mono
              (fun k hkv => List.mem_cons_of_mem _ hkv)
          · rw [if_neg hf] at hrun
            refine ih _ _ n ?_ hrun
            intro m hm
            rcases List.mem_append.1 hm with hm | hm
            · exact (hinv m (List.mem_cons_of_mem _ hm)).mono
                (fun k hkv => List.mem_cons_of_mem _ hkv)
            · rcases List.mem_map.1 hm with ⟨e, _, rfl⟩
              have h := hinv node (List.mem_cons_self _ _)
              constructor
              · intro a ha
                rcases List.mem_cons.1 ha with rfl | ha
                · exact List.mem_cons_self _ _
                · exact List.mem_cons_of_mem _ (h.1 a ha)
              · simp only [List.map_cons, List.nodup_cons]
                refine ⟨fun hmem => ?_, h.2⟩
                rcases List.mem_map.1 hmem with ⟨a, ha, hra⟩
                exact hk (hra ▸ h.1 a ha)

theorem split_head {α : Type} {qa qb rest : List α} {node : α}
    (heq : node :: rest = qa ++ qb) (hdeg : qa = [] → qb = []) :
    ∃ qa', qa = node :: qa' ∧ rest = qa' ++ qb := by
  cases qa with
  | nil => rw [hdeg rfl] at heq; cases heq
  | cons x qa' =>
    rw [List.cons_append] at heq
    injection heq with h1 h2
    subst h1
    exact ⟨qa', rfl, h2⟩

theorem mem_reachIn_succ {P : PuzzleImpl σ K} {r s : σ} {d : Nat} :
    s ∈ reachIn P r (d + 1) ↔ ∃ p ∈ reachIn P r d, s ∈ P.extensions p := by
  simp [reachIn, List.mem_flatMap]

theorem BfsInv.skip {P : PuzzleImpl σ K} {r : σ} {node : PNode σ}
    {rest : List (PNode σ)} {vis : List K}
    (hinj : ∀ s t, P.render s = P.render t → s = t)
    (h : BfsInv P r (node :: rest) vis) (hk : P.render node.puzzle ∈ vis) :
    BfsInv P r rest vis := by
  obtain ⟨D, qa, qb, heq, hl⟩ := h.levels
  obtain ⟨qa', rfl, hrest⟩ := split_head heq hl.degenerate
  refine ⟨fun n hn => h.chains n (List.mem_cons_of_mem _ hn), ?_, ?_⟩
  · cases qa' with
    | cons c qa'' =>
      refine ⟨D, c :: qa'', qb, hrest, ?_⟩
      refine ⟨fun n hn => hl.depthA n (List.mem_cons_of_mem _ hn), hl.depthB,
        fun habs => (List.cons_ne_nil _ _ habs).elim, hl.closedBelow, ?_⟩
      intro s hs
      rcases hl.frontierAt s hs with hv | ⟨m, hm, hms⟩
      · exact Or.inl hv
      · rcases List.mem_cons.1 hm with rfl | hm
        · exact Or.inl (hms ▸ hk)
        · exact Or.inr ⟨m, hm, hms⟩
    | nil =>
      have hrest' : rest = qb := by simpa using hrest
      refine ⟨D + 1, qb, [], by simp [hrest'], ?_⟩
      have hbelow : ∀ d s, d < D + 1 → s ∈ reachIn P r d → P.render s ∈ vis := by
        intro d s hd hs
        rcases Nat.lt_succ_iff_lt_or_eq.1 hd with hd | rfl
        · exact hl.closedBelow d s hd hs
        · rcases hl.frontierAt s hs with hv | ⟨m, hm, hms⟩
          · exact hv
          · rcases List.mem_cons.1 hm with rfl | hm
            · exact hms ▸ hk
            · cases hm
      refine ⟨hl.depthB, by simp, fun _ => rfl, hbelow, ?_⟩
      intro s hs
      rcases mem_reachIn_succ.1 hs with ⟨p, hp, hsp⟩
      have hpv : P.render p ∈ vis := by
        rcases hl.frontierAt p hp with hv | ⟨m, hm, hms⟩
        · exact hv
        · rcases List.mem_cons.1 hm with rfl | hm
          · exact hms ▸ hk
          · cases hm
      obtain ⟨s', hrend, _, hclo⟩ := h.visOk _ hpv
      obtain rfl : s' = p := hinj s' p hrend
      rcases hclo s hsp with hv | ⟨m, hm, hms⟩
      · exact Or.inl hv
      · rcases List.mem_cons.1 hm with rfl | hm
        · exact Or.inl (hms ▸ hk)
        · exact Or.inr ⟨m, hrest' ▸ hm, hms⟩
  · intro k hkv
    obtain ⟨s', hrend, huns, hclo⟩ := h.visOk k hkv
    refine ⟨s', hrend, huns, fun e he => ?_⟩
    rcases hclo e he with hv | ⟨m, hm, hms⟩
    · exact Or.inl hv
    · rcases List.mem_cons.1 hm with rfl | hm
      · exact Or.inl (hms ▸ hk)
      · exact Or.inr ⟨m, hm, hms⟩

theorem BfsInv.return_minimal {P : PuzzleImpl σ K} {r : σ} {node : PNode σ}
    {rest : List (PNode σ)} {vis : List K}
    (hinj : ∀ s t, P.render s = P.render t → s = t)
    (h : BfsInv P r (node :: rest) vis) (_hk : P.render node.puzzle ∉ vis) :
    ∀ d s, s ∈ reachIn P r d → P.is_solved s = true → node.ancestors.length ≤ d := by
  obtain ⟨D, qa, qb, heq, hl⟩ := h.levels
  obtain ⟨qa', rfl, hrest⟩ := split_head heq hl.degenerate
  have hD : node.ancestors.length = D := hl.depthA node (List.mem_cons_self _ _)
  intro d s hs hsolved
  rw [hD]
  by_contra hlt
  have hdD : d < D := Nat.lt_of_not_le hlt
  have hv := hl.closedBelow d s hdD hs
  obtain ⟨s', hrend, huns, _⟩ := h.visOk _ hv
  obtain rfl : s' = s := hinj s' s hrend
  rw [hsolved] at huns
  cases huns

theorem BfsInv.expand {P : PuzzleImpl σ K} [DecidableEq K] {r : σ} {node : PNode σ}
    {rest : List (PNode σ)} {vis : List K}
    (hinj : ∀ s t, P.render s = P.render t → s = t)
    (h : BfsInv P r (node :: rest) vis) (hk : P.render node.puzzle ∉ vis)
    (hs : P.is_solved node.puzzle = false) :
    BfsInv P r
      (rest ++
        ((P.extensions node.puzzle).filter
          (fun e => decide (P.render e ∉ P.render node.puzzle :: vis))).map
          (fun e => PNode.mk e (node.puzzle :: node.ancestors)))
      (P.render node.puzzle :: vis) := by
  set key := P.render node.puzzle with hkey
  set newNodes :=
    ((P.extensions node.puzzle).filter
      (fun e => decide (P.render e ∉ key :: vis))).map
      (fun e => PNode.mk e (node.puzzle :: node.ancestors)) with hnew
  obtain ⟨D, qa, qb, heq, hl⟩ := h.levels
  obtain ⟨qa', rfl, hrest⟩ := split_head heq hl.degenerate
  have hD : node.ancestors.length = D := hl.depthA node (List.mem_cons_self _ _)
  have hnewDepth : ∀ n ∈ newNodes, n.ancestors.length = D + 1 := by
    intro n hn
    rcases List.mem_map.1 hn with ⟨e, _, rfl⟩
    simp [hD]
  have hnewChain : ∀ n ∈ newNodes, IsChainTo P r n.puzzle n.ancestors := by
    intro n hn
    rcases List.mem_map.1 hn with ⟨e, he, rfl⟩
    exact ⟨List.mem_of_mem_filter he, h.chains node (List.mem_cons_self _ _)⟩
  have hnewMem : ∀ e ∈ P.extensions node.puzzle,
      P.render e ∈ key :: vis ∨ ∃ m ∈ newNodes, m.puzzle = e := by
    intro e he
    by_cases hre : P.render e ∈ key :: vis
    · exact Or.inl hre
    · refine Or.inr ⟨PNode.mk e (node.puzzle :: node.ancestors), ?_, rfl⟩
      exact List.mem_map.2 ⟨e, List.mem_filter.2 ⟨he, by simpa using hre⟩, rfl⟩
  refine ⟨?_, ?_, ?_⟩
  · intro n hn
    rcases List.mem_append.1 hn with hn | hn
    · exact h.chains n (List.mem_cons_of_mem _ hn)
    · exact hnewChain n hn
  · cases qa' with
    | cons c qa'' =>
      refine ⟨D, c :: qa'', qb ++ newNodes, by rw [hrest, List.append_assoc], ?_⟩
      refine ⟨fun n hn => hl.depthA n (List.mem_cons_of_mem _ hn), ?_,
        fun habs => (List.cons_ne_nil _ _ habs).elim,
        fun d s hd hs' => List.mem_cons_of_mem _ (hl.closedBelow d s hd hs'), ?_⟩
      · intro n hn
        rcases List.mem_append.1 hn with hn | hn
        · exact hl.depthB n hn
        · exact hnewDepth n hn
      · intro s hs'
        rcases hl.frontierAt s hs' with hv | ⟨m, hm, hms⟩
        · exact Or.inl (List.mem_cons_of_mem _ hv)
        · rcases List.mem_cons.1 hm with rfl | hm
          · exact Or.inl (hms ▸ List.mem_cons_self _ _)
          · exact Or.inr ⟨m, hm, hms⟩
    | nil =>
      have hrest' : rest = qb := by simpa using hrest
      have hbelow : ∀ d s, d < D + 1 → s ∈ reachIn P r d → P.render s ∈ key :: vis := by
        intro d s hd hs'
        rcases Nat.lt_succ_iff_lt_or_eq.1 hd with hd | rfl
        · exact List.mem_cons_of_mem _ (hl.closedBelow d s hd hs')
        · rcases hl.frontierAt s hs' with hv | ⟨m, hm, hms⟩
          · exact List.mem_cons_of_mem _ hv
          · rcases List.mem_cons.1 hm with rfl | hm
            · exact hms ▸ List.mem_cons_self _ _
            · cases hm
      refine ⟨D + 1, qb ++ newNodes, [], by simp [hrest'], ?_⟩
      refine ⟨?_, by simp, fun _ => rfl, hbelow, ?_⟩
      · intro n hn
        rcases List.mem_append.1 hn with hn | hn
        · exact hl.depthB n hn
        · exact hnewDepth n hn
      · intro s hs'
        rcases mem_reachIn_succ.1 hs' with ⟨p, hp, hsp⟩
        have hpv : P.render p ∈ key :: vis := by
          rcases hl.frontierAt p hp with hv | ⟨m, hm, hms⟩
          · exact List.mem_cons_of_mem _ hv
          · rcases List.mem_cons.1 hm with rfl | hm
            · exact hms ▸ List.mem_cons_self _ _
            · cases hm
        rcases List.mem_cons.1 hpv with hpk | hpv
        · obtain rfl : p = node.puzzle := hinj p node.puzzle hpk
          rcases hnewMem s hsp with hv | ⟨m, hm, hms⟩
          · exact Or.inl hv
          · exact Or.inr ⟨m, List.mem_append_right _ hm, hms⟩
        · obtain ⟨s', hrend, _, hclo⟩ := h.visOk _ hpv
          obtain rfl : s' = p := hinj s' p hrend
          rcases hclo s hsp with hv | ⟨m, hm, hms⟩
          · exact Or.inl (List.mem_cons_of_mem _ hv)
          · rcases List.mem_cons.1 hm with rfl | hm
            · exact Or.inl (hms ▸ List.mem_cons_self _ _)
            · exact Or.inr ⟨m, List.mem_append_left _ (hrest' ▸ hm), hms⟩
  · intro k hkv
    rcases List.mem_cons.1 hkv with rfl | hkv
    · refine ⟨node.puzzle, rfl, hs, fun e he => ?_⟩
      rcases hnewMem e he with hv | ⟨m, hm, hms⟩
      · exact Or.inl hv
      · exact Or.inr ⟨m, List.mem_append_right _ hm, hms⟩
    · obtain ⟨s', hrend, huns, hclo⟩ := h.visOk k hkv
      refine ⟨s', hrend, huns, fun e he => ?_⟩
      rcases hclo e he with hv | ⟨m, hm, hms⟩
      · exact Or.inl (List.mem_cons_of_mem _ hv)
      · rcases List.mem_cons.1 hm with rfl | hm
        · exact Or.inl (hms ▸ List.mem_cons_self _ _)
        · exact Or.inr ⟨m, List.mem_append_left _ hm, hms⟩

theorem bfsRun_minimal_aux (P : PuzzleImpl σ K) [DecidableEq K] (r : σ)
    (hff : ∀ s, P.fail_fast s = false)
    (hinj : ∀ s t, P.render s = P.render t → s = t) :
    ∀ (fuel : Nat) (q : List (PNode σ)) (vis : List K) (n : PNode σ),
      BfsInv P r q vis → bfsRun P fuel q vis = some (some n) →
      ∀ d s, s ∈ reachIn P r d → P.is_solved s = true →
        n.ancestors.length ≤ d := by
  intro fuel
  induction fuel with
  | zero => intro q vis n _ hrun; simp [bfsRun] at hrun
  | succ fuel ih =>
    intro q vis n hinv hrun
    cases q with
    | nil => simp [bfsRun] at hrun
    | cons node rest =>
      simp only [bfsRun] at hrun
      by_cases hk : P.render node.puzzle ∈ vis
      · rw [if_pos hk] at hrun
        exact ih rest vis n (hinv.skip hinj hk) hrun
      · rw [if_neg hk] at hrun
        by_cases hsv : P.is_solved node.puzzle
        · rw [if_pos hsv] at hrun
          obtain rfl : node = n := by simpa using hrun
          exact hinv.return_minimal hinj hk
        · rw [if_neg hsv] at hrun
          have hf : ¬ (P.fail_fast node.puzzle = true) := by simp [hff]
          rw [if_neg hf] at hrun
          exact ih _ _ n
            (hinv.expand hinj hk (Bool.not_eq_true _ ▸ hsv)) hrun

theorem BfsInv.start (P : PuzzleImpl σ K) (r : σ) :
    BfsInv P r [rootNode r] ([] : List K) := by
  refine ⟨?_, ⟨0, [rootNode r], [], by simp, ?_⟩, by simp⟩
  · intro n hn
    rcases List.mem_cons.1 hn with rfl | hn
    · exact rfl
    · cases hn
  · refine ⟨?_, by simp, by simp, by simp, ?_⟩
    · intro n hn
      rcases List.mem_cons.1 hn with rfl | hn
      · rfl
      · cases hn
    · intro s hs
      have : s = r := by simpa [reachIn] using hs
      exact Or.inr ⟨rootNode r, List.mem_cons_self _ _, this.symm⟩

theorem solvedKeys_append (l1 l2 : List (SearchEvt K)) :
    solvedKeys (l1 ++ l2) = solvedKeys l1 ++ solvedKeys l2 :=
  List.filterMap_append _ _ _

theorem ffKeys_append (l1 l2 : List (SearchEvt K)) :
    ffKeys (l1 ++ l2) = ffKeys l1 ++ ffKeys l2 :=
  List.filterMap_append _ _ _

theorem extKeys_append (l1 l2 : List (SearchEvt K)) :
    extKeys (l1 ++ l2) = extKeys l1 ++ extKeys l2 :=
  List.filterMap_append _ _ _

theorem LogInv.empty : LogInv ([] : List K) ([] : List (SearchEvt K)) := by
  refine ⟨by simp [solvedKeys], by simp [ffKeys], by simp [extKeys],
    by simp [solvedKeys], by simp [ffKeys], by simp [extKeys],
    by simp, by simp, by simp⟩

theorem nodup_snoc {α : Type} {l : List α} {a : α} (h : l.Nodup) (ha : a ∉ l) :
    (l ++ [a]).Nodup := by
  rw [List.nodup_append]
  refine ⟨h, List.nodup_singleton a, ?_⟩
  intro x hx hxa
  rw [List.mem_singleton] at hxa
  exact ha (hxa ▸ hx)

theorem solvedKeys_blockS (key : K) (b : Bool) :
    solvedKeys [SearchEvt.evalSolved key b] = [key] := rfl

theorem ffKeys_blockS (key : K) (b : Bool) :
    ffKeys [SearchEvt.evalSolved key b] = [] := rfl

theorem extKeys_blockS (key : K) (b : Bool) :
    extKeys [SearchEvt.evalSolved key b] = [] := rfl

theorem solvedKeys_blockP (key : K) :
    solvedKeys [SearchEvt.evalSolved key false, SearchEvt.evalFailFast key true] =
      [key] := rfl

theorem ffKeys_blockP (key : K) :
    ffKeys [SearchEvt.evalSolved key false, SearchEvt.evalFailFast key true] =
      [key] := rfl

theorem extKeys_blockP (key : K) :
    extKeys [SearchEvt.evalSolved key false, SearchEvt.evalFailFast key true] =
      [] := rfl

theorem solvedKeys_blockE (key : K) :
    solvedKeys [SearchEvt.evalSolved key false, SearchEvt.evalFailFast key false,
      SearchEvt.callExtensions key] = [key] := rfl

theorem ffKeys_blockE (key : K) :
    ffKeys [SearchEvt.evalSolved key false, SearchEvt.evalFailFast key false,
      SearchEvt.callExtensions key] = [key] := rfl

theorem extKeys_blockE (key : K) :
    extKeys [SearchEvt.evalSolved key false, SearchEvt.evalFailFast key false,
      SearchEvt.callExtensions key] = [key] := rfl

theorem mem_solvedKeys_of_evt {log : List (SearchEvt K)} {k : K} {b : Bool}
    (h : SearchEvt.evalSolved k b ∈ log) : k ∈ solvedKeys log :=
  List.mem_filterMap.2 ⟨_, h, rfl⟩

theorem mem_ffKeys_of_evt {log : List (SearchEvt K)} {k : K} {b : Bool}
    (h : SearchEvt.evalFailFast k b ∈ log) : k ∈ ffKeys log :=
  List.mem_filterMap.2 ⟨_, h, rfl⟩

theorem mem_extKeys_of_evt {log : List (SearchEvt K)} {k : K}
    (h : SearchEvt.callExtensions k ∈ log) : k ∈ extKeys log :=
  List.mem_filterMap.2 ⟨_, h, rfl⟩

theorem LogInv.addSolvedTrue {vis : List K} {log : List (SearchEvt K)} {key : K}
    (h : LogInv vis log) (hk : key ∉ vis) :
    LogInv (key :: vis) (log ++ [SearchEvt.evalSolved key true]) := by
  have hfreshS : key ∉ solvedKeys log := fun hmem => hk (h.memS key hmem)
  refine ⟨?_, ?_, ?_, ?_, ?_, ?_, ?_, ?_, ?_⟩
  · rw [solvedKeys_append, solvedKeys_blockS]
    exact nodup_snoc h.nodupS hfreshS
  · rw [ffKeys_append, ffKeys_blockS, List.append_nil]
    exact h.nodupF
  · rw [extKeys_append, extKeys_blockS, List.append_nil]
    exact h.nodupX
  · intro k hkmem
    rw [solvedKeys_append, solvedKeys_blockS] at hkmem
    rcases List.mem_append.1 hkmem with hkmem | hkmem
    · exact List.mem_cons_of_mem _ (h.memS k hkmem)
    · exact (List.mem_singleton.1 hkmem) ▸ List.mem_cons_self _ _
  · intro k hkmem
    rw [ffKeys_append, ffKeys_blockS, List.append_nil] at hkmem
    exact List.mem_cons_of_mem _ (h.memF k hkmem)
  · intro k hkmem
    rw [extKeys_append, extKeys_blockS, List.append_nil] at hkmem
    exact List.mem_cons_of_mem _ (h.memX k hkmem)
  · intro k b hmem
    rcases List.mem_append.1 hmem with hmem | hmem
    · exact List.mem_append_left _ (h.ordFS k b hmem)
    · simp at hmem
  · intro k hmem
    rcases List.mem_append.1 hmem with hmem | hmem
    · exact List.mem_append_left _ (h.ordXF k hmem)
    · simp at hmem
  · intro k hmem hxmem
    rcases List.mem_append.1 hmem with hmem | hmem
    · rcases List.mem_append.1 hxmem with hxmem | hxmem
      · exact h.pruneStops k hmem hxmem
      · simp at hxmem
    · simp at hmem

theorem LogInv.addPrune {vis : List K} {log : List (SearchEvt K)} {key : K}
    (h : LogInv vis log) (hk : key ∉ vis) :
    LogInv (key :: vis)
      (log ++ [SearchEvt.evalSolved key false, SearchEvt.evalFailFast key true]) := by
  have hfreshS : key ∉ solvedKeys log := fun hmem => hk (h.memS key hmem)
  have hfreshF : key ∉ ffKeys log := fun hmem => hk (h.memF key hmem)
  have hfreshX : key ∉ extKeys log := fun hmem => hk (h.memX key hmem)
  refine ⟨?_, ?_, ?_, ?_, ?_, ?_, ?_, ?_, ?_⟩
  · rw [solvedKeys_append, solvedKeys_blockP]
    exact nodup_snoc h.nodupS hfreshS
  · rw [ffKeys_append, ffKeys_blockP]
    exact nodup_snoc h.nodupF hfreshF
  · rw [extKeys_append, extKeys_blockP, List.append_nil]
    exact h.nodupX
  · intro k hkmem
    rw [solvedKeys_append, solvedKeys_blockP] at hkmem
    rcases List.mem_append.1 hkmem with hkmem | hkmem
    · exact List.mem_cons_of_mem _ (h.memS k hkmem)
    · exact (List.mem_singleton.1 hkmem) ▸ List.mem_cons_self _ _
  · intro k hkmem
    rw [ffKeys_append, ffKeys_blockP] at hkmem
    rcases List.mem_append.1 hkmem with hkmem | hkmem
    · exact List.mem_cons_of_mem _ (h.memF k hkmem)
    · exact (List.mem_singleton.1 hkmem) ▸ List.mem_cons_self _ _
  · intro k hkmem
    rw [extKeys_append, extKeys_blockP, List.append_nil] at hkmem
    exact List.mem_cons_of_mem _ (h.memX k hkmem)
  · intro k b hmem
    rcases List.mem_append.1 hmem with hmem | hmem
    · exact List.mem_append_left _ (h.ordFS k b hmem)
    · obtain ⟨rfl, rfl⟩ : k = key ∧ b = true := by simpa using hmem
      exact List.mem_append_right _ (List.mem_cons_self _ _)
  · intro k hmem
    rcases List.mem_append.1 hmem with hmem | hmem
    · exact List.mem_append_left _ (h.ordXF k hmem)
    · simp at hmem
  · intro k hmem hxmem
    rcases List.mem_append.1 hxmem with hx | hx
    · rcases List.mem_append.1 hmem with hm | hm
      · exact h.pruneStops k hm hx
      · obtain rfl : k = key := by simpa using hm
        exact hfreshX (mem_extKeys_of_evt hx)
    · simp at hx

theorem LogInv.addExpand {vis : List K} {log : List (SearchEvt K)} {key : K}
    (h : LogInv vis log) (hk : key ∉ vis) :
    LogInv (key :: vis)
      (log ++ [SearchEvt.evalSolved key false, SearchEvt.evalFailFast key false,
        SearchEvt.callExtensions key]) := by
  have hfreshS : key ∉ solvedKeys log := fun hmem => hk (h.memS key hmem)
  have hfreshF : key ∉ ffKeys log := fun hmem => hk (h.memF key hmem)
  have hfreshX : key ∉ extKeys log := fun hmem => hk (h.memX key hmem)
  refine ⟨?_, ?_, ?_, ?_, ?_, ?_, ?_, ?_, ?_⟩
  · rw [solvedKeys_append, solvedKeys_blockE]
    exact nodup_snoc h.nodupS hfreshS
  · rw [ffKeys_append, ffKeys_blockE]
    exact nodup_snoc h.nodupF hfreshF
  · rw [extKeys_append, extKeys_blockE]
    exact nodup_snoc h.nodupX hfreshX
  · intro k hkmem
    rw [solvedKeys_append, solvedKeys_blockE] at hkmem
    rcases List.mem_append.1 hkmem with hkmem | hkmem
    · exact List.mem_cons_of_mem _ (h.memS k hkmem)
    · exact (List.mem_singleton.1 hkmem) ▸ List.mem_cons_self _ _
  · intro k hkmem
    rw [ffKeys_append, ffKeys_blockE] at hkmem
    rcases List.mem_append.1 hkmem with hkmem | hkmem
    · exact List.mem_cons_of_mem _ (h.memF k hkmem)
    · exact (List.mem_singleton.1 hkmem) ▸ List.mem_cons_self _ _
  · intro k hkmem
    rw [extKeys_append, extKeys_blockE] at hkmem
    rcases List.mem_append.1 hkmem with hkmem | hkmem
    · exact List.mem_cons_of_mem _ (h.memX k hkmem)
    · exact (List.mem_singleton.1 hkmem) ▸ List.mem_cons_self _ _
  · intro k b hmem
    rcases List.mem_append.1 hmem with hmem | hmem
    · exact List.mem_append_left _ (h.ordFS k b hmem)
    · obtain ⟨rfl, rfl⟩ : k = key ∧ b = false := by simpa using hmem
      exact List.mem_append_right _ (List.mem_cons_self _ _)
  · intro k hmem
    rcases List.mem_append.1 hmem with hmem | hmem
    · exact List.mem_append_left _ (h.ordXF k hmem)
    · obtain rfl : k = key := by simpa using hmem
      exact List.mem_append_right _
        (List.mem_cons_of_mem _ (List.mem_cons_self _ _))
  · intro k hmem hxmem
    rcases List.mem_append.1 hmem with hm | hm
    · rcases List.mem_append.1 hxmem with hx | hx
      · exact h.pruneStops k hm hx
      · obtain rfl : k = key := by simpa using hx
        exact hfreshF (mem_ffKeys_of_evt hm)
    · simp at hm

theorem dfsRunT_fst (P : PuzzleImpl σ K) [DecidableEq K] :
    ∀ (fuel : Nat) (stack : List (PNode σ)) (vis : List K) (log : List (SearchEvt K)),
      (dfsRunT P fuel stack vis log).1 = dfsRun P fuel stack vis := by
  intro fuel
  induction fuel with
  | zero => intro stack vis log; rfl
  | succ fuel ih =>
    intro stack vis log
    cases stack with
    | nil => rfl
    | cons node rest =>
      simp only [dfsRunT, dfsRun]
      by_cases hk : P.render node.puzzle ∈ vis
      · rw [if_pos hk, if_pos hk, ih]
      · rw [if_neg hk, if_neg hk]
        by_cases hs : P.is_solved node.puzzle
        · rw [if_pos hs, if_pos hs]
        · rw [if_neg hs, if_neg hs]
          by_cases hf : P.fail_fast node.puzzle
          · rw [if_pos hf, if_pos hf, ih]
          · rw [if_neg hf, if_neg hf, ih]

theorem bfsRunT_fst (P : PuzzleImpl σ K) [DecidableEq K] :
    ∀ (fuel : Nat) (queue : List (PNode σ)) (vis : List K) (log : List (SearchEvt K)),
      (bfsRunT P fuel queue vis log).1 = bfsRun P fuel queue vis := by
  intro fuel
  induction fuel with
  | zero => intro queue vis log; rfl
  | succ fuel ih =>
    intro queue vis log
    cases queue with
    | nil => rfl
    | cons node rest =>
      simp only [bfsRunT, bfsRun]
      by_cases hk : P.render node.puzzle ∈ vis
      · rw [if_pos hk, if_pos hk, ih]
      · rw [if_neg hk, if_neg hk]
        by_cases hs : P.is_solved node.puzzle
        · rw [if_pos hs, if_pos hs]
        · rw [if_neg hs, if_neg hs]
          by_cases hf : P.fail_fast node.puzzle
          · rw [if_pos hf, if_pos hf, ih]
          · rw [if_neg hf, if_neg hf, ih]

theorem dfsRunT_loginv (P : PuzzleImpl σ K) [DecidableEq K] :
    ∀ (fuel : Nat) (stack : List (PNode σ)) (vis : List K) (log : List (SearchEvt K)),
      LogInv vis log →
      LogInv (dfsRunT P fuel stack vis log).2.1 (dfsRunT P fuel stack vis log).2.2 := by
  intro fuel
  induction fuel with
  | zero => intro stack vis log h; exact h
  | succ fuel ih =>
    intro stack vis log h
    cases stack with
    | nil => exact h
    | cons node rest =>
      simp only [dfsRunT]
      by_cases hk : P.render node.puzzle ∈ vis
      · rw [if_pos hk]
        exact ih rest vis log h
      · rw [if_neg hk]
        by_cases hs : P.is_solved node.puzzle
        · rw [if_pos hs, hs]
          exact h.addSolvedTrue hk
        · rw [if_neg hs]
          rw [Bool.not_eq_true] at hs
          rw [hs]
          by_cases hf : P.fail_fast node.puzzle
          · rw [if_pos hf, hf]
            exact ih rest _ _ (by rw [List.append_assoc]; exact h.addPrune hk)
          · rw [if_neg hf]
            rw [Bool.not_eq_true] at hf
            rw [hf]
            exact ih _ _ _
              (by rw [List.append_assoc, List.append_assoc]; exact h.addExpand hk)

theorem bfsRunT_loginv (P : PuzzleImpl σ K) [DecidableEq K] :
    ∀ (fuel : Nat) (queue : List (PNode σ)) (vis : List K) (log : List (SearchEvt K)),
      LogInv vis log →
      LogInv (bfsRunT P fuel queue vis log).2.1 (bfsRunT P fuel queue vis log).2.2 := by
  intro fuel
  induction fuel with
  | zero => intro queue vis log h; exact h
  | succ fuel ih =>
    intro queue vis log h
    cases queue with
    | nil => exact h
    | cons node rest =>
      simp only [bfsRunT]
      by_cases hk : P.render node.puzzle ∈ vis
      · rw [if_pos hk]
        exact ih rest vis log h
      · rw [if_neg hk]
        by_cases hs : P.is_solved node.puzzle
        · rw [if_pos hs, hs]
          exact h.addSolvedTrue hk
        · rw [if_neg hs]
          rw [Bool.not_eq_true] at hs
          rw [hs]
          by_cases hf : P.fail_fast node.puzzle
          · rw [if_pos hf, hf]
            exact ih rest _ _ (by rw [List.append_assoc]; exact h.addPrune hk)
          · rw [if_neg hf]
            rw [Bool.not_eq_true] at hf
            rw [hf]
            exact ih _ _ _
              (by rw [List.append_assoc, List.append_assoc]; exact h.addExpand hk)

theorem dfsRun_skip (P : PuzzleImpl σ K) [DecidableEq K] (fuel : Nat)
    (node : PNode σ) (rest : List (PNode σ)) (vis : List K)
    (hk : P.render node.puzzle ∈ vis) :
    dfsRun P (fuel + 1) (node :: rest) vis = dfsRun P fuel rest vis := by
  simp only [dfsRun]
  rw [if_pos hk]

theorem bfsRun_skip (P : PuzzleImpl σ K) [DecidableEq K] (fuel : Nat)
    (node : PNode σ) (rest : List (PNode σ)) (vis : List K)
    (hk : P.render node.puzzle ∈ vis) :
    bfsRun P (fuel + 1) (node :: rest) vis = bfsRun P fuel rest vis := by
  simp only [bfsRun]
  rw [if_pos hk]

theorem dfsRunT_skip (P : PuzzleImpl σ K) [DecidableEq K] (fuel : Nat)
    (node : PNode σ) (rest : List (PNode σ)) (vis : List K)
    (log : List (SearchEvt K)) (hk : P.render node.puzzle ∈ vis) :
    dfsRunT P (fuel + 1) (node :: rest) vis log = dfsRunT P fuel rest vis log := by
  simp only [dfsRunT]
  rw [if_pos hk]

theorem bfsRunT_skip (P : PuzzleImpl σ K) [DecidableEq K] (fuel : Nat)
    (node : PNode σ) (rest : List (PNode σ)) (vis : List K)
    (log : List (SearchEvt K)) (hk : P.render node.puzzle ∈ vis) :
    bfsRunT P (fuel + 1) (node :: rest) vis log = bfsRunT P fuel rest vis log := by
  simp only [bfsRunT]
  rw [if_pos hk]

theorem solvedKeys_blockF (key : K) (b : Bool) :
    solvedKeys [SearchEvt.evalFailFast key b] = [] := rfl

theorem solvedKeys_blockX (key : K) :
    solvedKeys [SearchEvt.callExtensions key] = [] := rfl

/-- The visited set of the instrumented `dfs` run is exactly the reversed
list of keys on which `is_solved` was evaluated: keys are inserted exactly
at the dequeue that evaluates them. -/
theorem dfsRunT_vis (P : PuzzleImpl σ K) [DecidableEq K] (vis0 : List K) :
    ∀ (fuel : Nat) (stack : List (PNode σ)) (vis : List K) (log : List (SearchEvt K)),
      vis = (solvedKeys log).reverse ++ vis0 →
      (dfsRunT P fuel stack vis log).2.1 =
        (solvedKeys (dfsRunT P fuel stack vis log).2.2).reverse ++ vis0 := by
  intro fuel
  induction fuel with
  | zero => intro stack vis log h; exact h
  | succ fuel ih =>
    intro stack vis log h
    cases stack with
    | nil => exact h
    | cons node rest =>
      simp only [dfsRunT]
      by_cases hk : P.render node.puzzle ∈ vis
      · rw [if_pos hk]
        exact ih rest vis log h
      · rw [if_neg hk]
        by_cases hs : P.is_solved node.puzzle
        · rw [if_pos hs]
          simp only [solvedKeys_append, solvedKeys_blockS, List.reverse_append,
            List.reverse_cons, List.reverse_nil, List.nil_append]
          simp [h]
        · rw [if_neg hs]
          by_cases hf : P.fail_fast node.puzzle
          · rw [if_pos hf]
            refine ih rest _ _ ?_
            simp only [solvedKeys_append, solvedKeys_blockS, solvedKeys_blockF,
              List.append_nil, List.reverse_append, List.reverse_cons,
              List.reverse_nil, List.nil_append]
            simp [h]
          · rw [if_neg hf]
            refine ih _ _ _ ?_
            simp only [solvedKeys_append, solvedKeys_blockS, solvedKeys_blockF,
              solvedKeys_blockX, List.append_nil, List.reverse_append,
              List.reverse_cons, List.reverse_nil, List.nil_append]
            simp [h]

/-- The visited set of the instrumented `bfs` run is exactly the reversed
list of keys on which `is_solved` was evaluated. -/
theorem bfsRunT_vis (P : PuzzleImpl σ K) [DecidableEq K] (vis0 : List K) :
    ∀ (fuel : Nat) (queue : List (PNode σ)) (vis : List K) (log : List (SearchEvt K)),
      vis = (solvedKeys log).reverse ++ vis0 →
      (bfsRunT P fuel queue vis log).2.1 =
        (solvedKeys (bfsRunT P fuel queue vis log).2.2).reverse ++ vis0 := by
  intro fuel
  induction fuel with
  | zero => intro queue vis log h; exact h
  | succ fuel ih =>
    intro queue vis log h
    cases queue with
    | nil => exact h
    | cons node rest =>
      simp only [bfsRunT]
      by_cases hk : P.render node.puzzle ∈ vis
      · rw [if_pos hk]
        exact ih rest vis log h
      · rw [if_neg hk]
        by_cases hs : P.is_solved node.puzzle
        · rw [if_pos hs]
          simp only [solvedKeys_append, solvedKeys_blockS, List.reverse_append,
            List.reverse_cons, List.reverse_nil, List.nil_append]
          simp [h]
        · rw [if_neg hs]
          by_cases hf : P.fail_fast node.puzzle
          · rw [if_pos hf]
            refine ih rest _ _ ?_
            simp only [solvedKeys_append, solvedKeys_blockS, solvedKeys_blockF,
              List.append_nil, List.reverse_append, List.reverse_cons,
              List.reverse_nil, List.nil_append]
            simp [h]
          · rw [if_neg hf]
            refine ih _ _ _ ?_
            simp only [solvedKeys_append, solvedKeys_blockS, solvedKeys_blockF,
              solvedKeys_blockX, List.append_nil, List.reverse_append,
              List.reverse_cons, List.reverse_nil, List.nil_append]
            simp [h]

theorem depth_first_solve_of_run_none {P : PuzzleImpl σ K} [DecidableEq K]
    {fuel : Nat} {p : σ} (h : dfsRun P fuel [rootNode p] [] = some none) :
    depth_first_solve P fuel p = some none := by
  unfold depth_first_solve
  rw [h]

theorem breadth_first_solve_of_run_none {P : PuzzleImpl σ K} [DecidableEq K]
    {fuel : Nat} {p : σ} (h : bfsRun P fuel [rootNode p] [] = some none) :
    breadth_first_solve P fuel p = some none := by
  unfold breadth_first_solve
  rw [h]

theorem depth_first_solve_of_run_some {P : PuzzleImpl σ K} [DecidableEq K]
    {fuel : Nat} {p : σ} {n : PNode σ}
    (h : dfsRun P fuel [rootNode p] [] = some (some n)) :
    depth_first_solve P fuel p = some (some (reconstruct_path n)) := by
  unfold depth_first_solve
  rw [h]

theorem breadth_first_solve_of_run_some {P : PuzzleImpl σ K} [DecidableEq K]
    {fuel : Nat} {p : σ} {n : PNode σ}
    (h : bfsRun P fuel [rootNode p] [] = some (some n)) :
    breadth_first_solve P fuel p = some (some (reconstruct_path n)) := by
  unfold breadth_first_solve
  rw [h]

theorem depth_first_solve_some_inv {P : PuzzleImpl σ K} [DecidableEq K]
    {fuel : Nat} {p : σ} {t : PTree σ}
    (h : depth_first_solve P fuel p = some (some t)) :
    ∃ n, dfsRun P fuel [rootNode p] [] = some (some n) ∧ t = reconstruct_path n := by
  unfold depth_first_solve at h
  cases hrun : dfsRun P fuel [rootNode p] [] with
  | none => rw [hrun] at h; cases h
  | some o =>
    cases o with
    | none => rw [hrun] at h; cases h
    | some n =>
      rw [hrun] at h
      refine ⟨n, rfl, ?_⟩
      injection h with h1
      injection h1 with h2
      exact h2.symm

theorem breadth_first_solve_some_inv {P : PuzzleImpl σ K} [DecidableEq K]
    {fuel : Nat} {p : σ} {t : PTree σ}
    (h : breadth_first_solve P fuel p = some (some t)) :
    ∃ n, bfsRun P fuel [rootNode p] [] = some (some n) ∧ t = reconstruct_path n := by
  unfold breadth_first_solve at h
  cases hrun : bfsRun P fuel [rootNode p] [] with
  | none => rw [hrun] at h; cases h
  | some o =>
    cases o with
    | none => rw [hrun] at h; cases h
    | some n =>
      rw [hrun] at h
      refine ⟨n, rfl, ?_⟩
      injection h with h1
      injection h1 with h2
      exact h2.symm

theorem rootNode_chain (P : PuzzleImpl σ K) (p : σ) :
    ∀ m ∈ [rootNode p], IsChainTo P p m.puzzle m.ancestors := by
  intro m hm
  rcases List.mem_cons.1 hm with rfl | hm
  · exact rfl
  · cases hm

theorem rootNode_ancok (P : PuzzleImpl σ K) (p : σ) :
    ∀ m ∈ [rootNode p], AncOk P [] m := by
  intro m hm
  rcases List.mem_cons.1 hm with rfl | hm
  · exact ⟨fun a ha => absurd ha (List.not_mem_nil a), List.nodup_nil⟩
  · cases hm

end PuzzleSolver

namespace MN

theorem indexOf?_first {l : List Char} {a : Char} :
    ∀ {i : Nat}, l.indexOf? a = some i →
      i < l.length ∧ l.getD i ' ' = a ∧ ∀ j, j < i → l.getD j ' ' ≠ a := by
  induction l with
  | nil => intro i h; simp at h
  | cons x xs ih =>
    intro i h
    rw [List.indexOf?_cons] at h
    by_cases hx : x == a
    · rw [if_pos hx] at h
      obtain rfl : (0 : Nat) = i := by simpa using h
      refine ⟨by simp, by simpa using (beq_iff_eq.1 hx), ?_⟩
      intro j hj
      cases hj
    · rw [if_neg hx] at h
      rcases Option.map_eq_some'.1 h with ⟨i', hi', rfl⟩
      obtain ⟨hlen, hget, hfirst⟩ := ih hi'
      refine ⟨by simpa using Nat.succ_lt_succ hlen, by simpa using hget, ?_⟩
      intro j hj
      cases j with
      | zero =>
        simp only [List.getD_cons_zero]
        exact fun hxa => hx (beq_iff_eq.2 hxa)
      | succ j' =>
        simp only [List.getD_cons_succ]
        exact hfirst j' (Nat.lt_of_succ_lt_succ hj)

theorem indexOf?_none_iff {l : List Char} {a : Char} :
    l.indexOf? a = none ↔ a ∉ l := by
  rw [List.indexOf?_eq_none_iff]
  constructor
  · intro h hmem
    exact h a hmem (beq_iff_eq.2 rfl)
  · intro h x hx hbeq
    exact h (beq_iff_eq.1 hbeq ▸ hx)

theorem find_first_go_none (elem : Char) :
    ∀ (grid : Grid) (r0 : Nat),
      find_first.go elem r0 grid = none ↔ ∀ row ∈ grid, elem ∉ row := by
  intro grid
  induction grid with
  | nil => intro r0; simp [find_first.go]
  | cons t rest ih =>
    intro r0
    simp only [find_first.go]
    cases h : t.indexOf? elem with
    | some c =>
      simp only []
      constructor
      · intro habs; cases habs
      · intro hall
        have hmem : elem ∈ t := by
          obtain ⟨hlt, hget, _⟩ := indexOf?_first h
          rw [List.getD_eq_getElem?_getD, List.getElem?_eq_getElem hlt] at hget
          exact hget ▸ List.getElem_mem hlt
        exact absurd hmem (hall t (List.mem_cons_self _ _))
    | none =>
      simp only []
      rw [ih (r0 + 1)]
      constructor
      · intro hall row hrow
        rcases List.mem_cons.1 hrow with rfl | hrow
        · exact indexOf?_none_iff.1 h
        · exact hall row hrow
      · intro hall row hrow
        exact hall row (List.mem_cons_of_mem _ hrow)

theorem find_first_eq_none_iff (grid : Grid) (elem : Char) :
    find_first grid elem = none ↔ ∀ row ∈ grid, elem ∉ row :=
  find_first_go_none elem grid 0

theorem find_first_go_spec (elem : Char) :
    ∀ (grid : Grid) (r0 r c : Nat),
      find_first.go elem r0 grid = some (r, c) →
      ∃ i, r = r0 + i ∧ i < grid.length ∧ (∀ j, j < i → elem ∉ grid.getD j []) ∧
        (grid.getD i []).indexOf? elem = some c := by
  intro grid
  induction grid with
  | nil => intro r0 r c h; simp [find_first.go] at h
  | cons t rest ih =>
    intro r0 r c h
    simp only [find_first.go] at h
    cases hidx : t.indexOf? elem with
    | some col =>
      rw [hidx] at h
      simp only [Option.some.injEq, Prod.mk.injEq] at h
      obtain ⟨rfl, rfl⟩ := h
      exact ⟨0, by simp, by simp, fun j hj => absurd hj (Nat.not_lt_zero j),
        by simpa using hidx⟩
    | none =>
      rw [hidx] at h
      obtain ⟨i, rfl, hlen, hrows, hcol⟩ := ih (r0 + 1) r c h
      refine ⟨i + 1, by omega, by simpa using Nat.succ_lt_succ hlen, ?_,
        by simpa using hcol⟩
      intro j hj
      cases j with
      | zero => simpa using indexOf?_none_iff.1 hidx
      | succ j' => simpa using hrows j' (Nat.lt_of_succ_lt_succ hj)

theorem find_first_spec {grid : Grid} {elem : Char} {r c : Nat}
    (h : find_first grid elem = some (r, c)) :
    r < grid.length ∧ c < (grid.getD r []).length ∧
      (grid.getD r []).getD c ' ' = elem ∧
      (∀ j, j < r → elem ∉ grid.getD j []) ∧
      (∀ c', c' < c → (grid.getD r []).getD c' ' ' ≠ elem) := by
  obtain ⟨i, hi, hlen, hrows, hcol⟩ := find_first_go_spec elem grid 0 r c h
  obtain rfl : r = i := by omega
  obtain ⟨hclen, hget, hfirst⟩ := indexOf?_first hcol
  exact ⟨hlen, hclen, hget, hrows, hfirst⟩

theorem getD_set_self {α : Type} {l : List α} {i : Nat} {a : α} (d : α)
    (h : i < l.length) : (l.set i a).getD i d = a := by
  rw [List.getD_eq_getElem?_getD, List.getElem?_set]
  simp [h]

theorem getD_set_ne {α : Type} {l : List α} {i j : Nat} {a : α} (d : α)
    (h : i ≠ j) : (l.set i a).getD j d = l.getD j d := by
  rw [List.getD_eq_getElem?_getD, List.getElem?_set_ne h,
    ← List.getD_eq_getElem?_getD]

theorem length_getD_set2d (g : Grid) (rc : Nat × Nat) (v : Char) (r : Nat) :
    ((set2d g rc v).getD r []).length = (g.getD r []).length := by
  by_cases h1 : rc.1 = r
  · subst h1
    by_cases h2 : rc.1 < g.length
    · rw [set2d, getD_set_self [] h2, List.length_set]
    · rw [set2d, List.set_eq_of_length_le (Nat.le_of_not_lt h2)]
  · rw [set2d, getD_set_ne [] h1]

theorem get2d_set2d_eq {g : Grid} {rc : Nat × Nat} {v : Char}
    (h1 : rc.1 < g.length) (h2 : rc.2 < (g.getD rc.1 []).length) :
    get2d (set2d g rc v) rc = v := by
  rw [get2d, set2d, getD_set_self [] h1, getD_set_self ' ' h2]

theorem get2d_set2d_ne {g : Grid} {rc rc' : Nat × Nat} {v : Char}
    (h : rc ≠ rc') : get2d (set2d g rc v) rc' = get2d g rc' := by
  by_cases h1 : rc.1 = rc'.1
  · have h2 : rc.2 ≠ rc'.2 := fun h2 => h (Prod.ext h1 h2)
    by_cases hlt : rc.1 < g.length
    · rw [get2d, set2d, h1, getD_set_self [] (h1 ▸ hlt), getD_set_ne ' ' h2,
        get2d]
    · rw [get2d, set2d, List.set_eq_of_length_le (Nat.le_of_not_lt hlt), get2d]
  · rw [get2d, set2d, getD_set_ne [] h1, get2d]

theorem swap_to_grid (p : MNPuzzle) (empty symbol : Nat × Nat) :
    (p.swap empty symbol).to_grid = p.to_grid := rfl

theorem swap_spec (p : MNPuzzle) (empty symbol : Nat × Nat)
    (hne : empty ≠ symbol)
    (he1 : empty.1 < p.from_grid.length)
    (he2 : empty.2 < (p.from_grid.getD empty.1 []).length)
    (hs1 : symbol.1 < p.from_grid.length)
    (hs2 : symbol.2 < (p.from_grid.getD symbol.1 []).length) :
    get2d (p.swap empty symbol).from_grid empty = get2d p.from_grid symbol ∧
    get2d (p.swap empty symbol).from_grid symbol = '*' ∧
    (∀ rc, rc ≠ empty → rc ≠ symbol →
      get2d (p.swap empty symbol).from_grid rc = get2d p.from_grid rc) := by
  have hlen1 : symbol.1 < (set2d p.from_grid empty (get2d p.from_grid symbol)).length := by
    simpa [set2d, List.length_set] using hs1
  have hlen2 : symbol.2 <
      ((set2d p.from_grid empty (get2d p.from_grid symbol)).getD symbol.1 []).length := by
    rw [length_getD_set2d]
    exact hs2
  refine ⟨?_, ?_, ?_⟩
  · show get2d (set2d (set2d p.from_grid empty (get2d p.from_grid symbol)) symbol '*') empty = _
    rw [get2d_set2d_ne (Ne.symm hne), get2d_set2d_eq he1 he2]
  · show get2d (set2d (set2d p.from_grid empty (get2d p.from_grid symbol)) symbol '*') symbol = _
    rw [get2d_set2d_eq hlen1 hlen2]
  · intro rc hrce hrcs
    show get2d (set2d (set2d p.from_grid empty (get2d p.from_grid symbol)) symbol '*') rc = _
    rw [get2d_set2d_ne (fun hh => hrcs hh.symm), get2d_set2d_ne (fun hh => hrce hh.symm)]

theorem extensions_eq_of_find {p : MNPuzzle} {rc : Nat × Nat}
    (h : find_first p.from_grid '*' = some rc) :
    MNPuzzle.extensions p =
      some ((mnValid p rc).map (fun c => p.swap rc (c.1.toNat, c.2.toNat))) := by
  rw [MNPuzzle.extensions, h]
  rfl

theorem extensions_none_of_no_star {p : MNPuzzle}
    (h : ∀ row ∈ p.from_grid, '*' ∉ row) : MNPuzzle.extensions p = none := by
  rw [MNPuzzle.extensions, (find_first_eq_none_iff p.from_grid '*').2 h]

theorem mnValid_spec (p : MNPuzzle) (rc : Nat × Nat) :
    ∀ c ∈ mnValid p rc,
      c.1.toNat < p.n ∧ c.2.toNat < p.m ∧ (c.1.toNat, c.2.toNat) ≠ rc ∧
        (c.1.toNat + c.2.toNat + 1 = rc.1 + rc.2 ∨
          rc.1 + rc.2 + 1 = c.1.toNat + c.2.toNat) := by
  intro c hc
  obtain ⟨hmem, hval⟩ := List.mem_filter.1 hc
  have hv : 0 ≤ c.1 ∧ c.1 < (p.n : Int) ∧ 0 ≤ c.2 ∧ c.2 < (p.m : Int) := by
    simpa [is_valid_location] using hval
  obtain ⟨hv1, hv2, hv3, hv4⟩ := hv
  have hbound : c.1.toNat < p.n ∧ c.2.toNat < p.m := by omega
  refine ⟨hbound.1, hbound.2, ?_, ?_⟩
  · intro heq
    have heq1 : c.1.toNat = rc.1 := congrArg Prod.fst heq
    have heq2 : c.2.toNat = rc.2 := congrArg Prod.snd heq
    simp only [mnCandidates, List.mem_cons, List.not_mem_nil, or_false] at hmem
    rcases hmem with h | h | h | h <;>
      (rw [Prod.ext_iff] at h; obtain ⟨ha, hb⟩ := h; omega)
  · simp only [mnCandidates, List.mem_cons, List.not_mem_nil, or_false] at hmem
    rcases hmem with h | h | h | h <;>
      (rw [Prod.ext_iff] at h; obtain ⟨ha, hb⟩ := h; omega)

theorem row_length_of_wf {p : MNPuzzle}
    (hwf : ∀ row ∈ p.from_grid, row.length = p.m) {r : Nat}
    (hr : r < p.from_grid.length) : (p.from_grid.getD r []).length = p.m := by
  rw [List.getD_eq_getElem?_getD, List.getElem?_eq_getElem hr]
  exact hwf _ (List.getElem_mem hr)

theorem equal_grids_refl_append (g extra : Grid) :
    equal_grids g (g ++ extra) = true := by
  induction g with
  | nil => rfl
  | cons r t ih => simpa [equal_grids, List.zip_cons_cons] using ih

theorem equal_grids_append_left (g extra : Grid) :
    equal_grids (g ++ extra) g = true := by
  induction g with
  | nil => simp [equal_grids]
  | cons r t ih => simpa [equal_grids, List.zip_cons_cons] using ih

theorem equal_grids_iff (g1 g2 : Grid) :
    equal_grids g1 g2 = true ↔
      ∀ i, i < min g1.length g2.length → g1.getD i [] = g2.getD i [] := by
  induction g1 generalizing g2 with
  | nil => simp [equal_grids]
  | cons r1 t1 ih =>
    cases g2 with
    | nil => simp [equal_grids]
    | cons r2 t2 =>
      simp only [equal_grids, List.zip_cons_cons, List.all_cons, Bool.and_eq_true,
        beq_iff_eq]
      rw [show (List.all (t1.zip t2) fun ab => ab.1 == ab.2) = equal_grids t1 t2
          from rfl, ih t2]
      constructor
      · rintro ⟨hr, ht⟩ i hi
        cases i with
        | zero => simpa using hr
        | succ i' =>
          simp only [List.getD_cons_succ]
          exact ht i' (by simp at hi; omega)
      · intro hall
        refine ⟨by simpa using hall 0 (by simp), ?_⟩
        intro i hi
        have := hall (i + 1) (by simp; omega)
        simpa using this

end MN


section Claims

open PuzzleSolver MN

/-- C1, counterexample to the claim as stated: the drivers run `fail_fast`
pruning and key-based deduplication, which the claim's hypotheses (unit
cost, complete successor set) do not exclude.  On `toyBad` (complete
successor set, unit moves) the first solved node dequeued by the
breadth-first loop is state `5` at depth 3, although the solvable state
`3` is reachable at depth 2. -/
theorem claim_C1_counterexample :
    bfsRun toyBad 20 [rootNode 0] [] = some (some (PNode.mk 5 [4, 2, 0])) ∧
    toyBad.is_solved 3 = true ∧ 3 ∈ reachIn toyBad 0 2 ∧
    (PNode.mk (5 : Nat) [4, 2, 0]).ancestors.length = 3 ∧ ¬ ((3 : Nat) ≤ 2) :=
  ⟨by decide, by decide, by decide, by decide, by decide⟩

/-- C1 (amended): if additionally `fail_fast` never prunes and the
canonical render is injective, then whenever breadth-first search returns
a chain, its length is at most `d + 1` for every solved state reachable in
`d` moves (a minimum-length solution chain), and in particular at most the
length of any chain depth-first search returns. -/
theorem claim_C1_bfs_minimal {σ K : Type} [DecidableEq K] (P : PuzzleImpl σ K)
    (r : σ) (hff : ∀ s, P.fail_fast s = false)
    (hinj : ∀ s t, P.render s = P.render t → s = t)
    (fb fd : Nat) (tb td : PTree σ)
    (hb : breadth_first_solve P fb r = some (some tb))
    (hd : depth_first_solve P fd r = some (some td)) :
    (∀ d s, s ∈ reachIn P r d → P.is_solved s = true → (spine tb).length ≤ d + 1) ∧
    (spine tb).length ≤ (spine td).length := by
  obtain ⟨nb, hrunb, rfl⟩ := breadth_first_solve_some_inv hb
  obtain ⟨nd, hrund, rfl⟩ := depth_first_solve_some_inv hd
  have hmin := bfsRun_minimal_aux P r hff hinj fb [rootNode r] [] nb
    (BfsInv.start P r) hrunb
  have hsound := dfsRun_sound P r fd [rootNode r] [] nd (rootNode_chain P r) hrund
  rw [length_spine_reconstruct_path, length_spine_reconstruct_path]
  constructor
  · intro d s hs hsolved
    exact Nat.succ_le_succ (hmin d s hs hsolved)
  · exact Nat.succ_le_succ (hmin _ _ hsound.2.mem_reachIn hsound.1)

/-- C1 witness: the amended theorem applied to the concrete puzzle
`toyOK`, whose `fail_fast` is identically false and whose render is the
identity. -/
theorem claim_C1_bfs_minimal_witness :
    (spine (PTree.mk (0 : Nat) [PTree.mk 1 []])).length ≤
      (spine (PTree.mk (0 : Nat) [PTree.mk 1 []])).length :=
  (claim_C1_bfs_minimal toyOK 0 (fun _ => rfl) (fun _ _ h => h) 10 10
    (PTree.mk 0 [PTree.mk 1 []]) (PTree.mk 0 [PTree.mk 1 []])
    (by rfl) (by rfl)).2

/-- C2: in both drivers the visited set equals (reversed) exactly the keys
on which `is_solved` was evaluated — keys are inserted at the dequeue that
evaluates them, never at push; `is_solved` and `fail_fast` are each
evaluated at most once per distinct canonical key; popping a key already
visited just discards it (same recursive call, no logged activity); and
the instrumented runs compute the plain drivers. -/
theorem claim_C2_dedup_policy {σ K : Type} [DecidableEq K] (P : PuzzleImpl σ K)
    (r : σ) (fuel : Nat) :
    (solvedKeys (dfsRunT P fuel [rootNode r] [] []).2.2).Nodup ∧
    (ffKeys (dfsRunT P fuel [rootNode r] [] []).2.2).Nodup ∧
    (solvedKeys (bfsRunT P fuel [rootNode r] [] []).2.2).Nodup ∧
    (ffKeys (bfsRunT P fuel [rootNode r] [] []).2.2).Nodup ∧
    ((dfsRunT P fuel [rootNode r] [] []).2.1 =
      (solvedKeys (dfsRunT P fuel [rootNode r] [] []).2.2).reverse) ∧
    ((bfsRunT P fuel [rootNode r] [] []).2.1 =
      (solvedKeys (bfsRunT P fuel [rootNode r] [] []).2.2).reverse) ∧
    ((dfsRunT P fuel [rootNode r] [] []).1 = dfsRun P fuel [rootNode r] []) ∧
    ((bfsRunT P fuel [rootNode r] [] []).1 = bfsRun P fuel [rootNode r] []) ∧
    (∀ (node : PNode σ) (rest : List (PNode σ)) (vis : List K),
      P.render node.puzzle ∈ vis →
        dfsRun P (fuel + 1) (node :: rest) vis = dfsRun P fuel rest vis ∧
        bfsRun P (fuel + 1) (node :: rest) vis = bfsRun P fuel rest vis ∧
        ∀ (log : List (SearchEvt K)),
          dfsRunT P (fuel + 1) (node :: rest) vis log = dfsRunT P fuel rest vis log ∧
          bfsRunT P (fuel + 1) (node :: rest) vis log = bfsRunT P fuel rest vis log) := by
  have hd := dfsRunT_loginv P fuel [rootNode r] [] [] LogInv.empty
  have hb := bfsRunT_loginv P fuel [rootNode r] [] [] LogInv.empty
  refine ⟨hd.nodupS, hd.nodupF, hb.nodupS, hb.nodupF, ?_, ?_,
    dfsRunT_fst P fuel [rootNode r] [] [], bfsRunT_fst P fuel [rootNode r] [] [],
    ?_⟩
  · simpa using dfsRunT_vis P [] fuel [rootNode r] [] [] (by simp [solvedKeys])
  · simpa using bfsRunT_vis P [] fuel [rootNode r] [] [] (by simp [solvedKeys])
  · intro node rest vis hk
    exact ⟨dfsRun_skip P fuel node rest vis hk, bfsRun_skip P fuel node rest vis hk,
      fun log => ⟨dfsRunT_skip P fuel node rest vis log hk,
        bfsRunT_skip P fuel node rest vis log hk⟩⟩

/-- C2 witness: the discard equations at a concrete already-visited key. -/
theorem claim_C2_dedup_policy_witness :
    ((0 : Nat) ∈ [(0 : Nat)]) ∧
    dfsRun toyOK 4 (rootNode 0 :: []) [0] = dfsRun toyOK 3 [] [0] ∧
    bfsRun toyOK 4 (rootNode 0 :: []) [0] = bfsRun toyOK 3 [] [0] := by
  have h := (claim_C2_dedup_policy toyOK 0 3).2.2.2.2.2.2.2.2
    (rootNode 0) [] [0] (by decide)
  exact ⟨by decide, h.1, h.2.1⟩

/-- C3: on failure the solvers return the explicit absence value with no
reconstruction; on success they return the reconstructed root, whose chain
of singleton successor collections lists the recorded path from the
initial state (head) to the solved state (last), with length equal to
solution depth plus one. -/
theorem claim_C3_reconstruction {σ K : Type} [DecidableEq K] (P : PuzzleImpl σ K)
    (fuel : Nat) (p : σ) :
    (dfsRun P fuel [rootNode p] [] = some none →
      depth_first_solve P fuel p = some none) ∧
    (bfsRun P fuel [rootNode p] [] = some none →
      breadth_first_solve P fuel p = some none) ∧
    (∀ n, dfsRun P fuel [rootNode p] [] = some (some n) →
      depth_first_solve P fuel p = some (some (reconstruct_path n)) ∧
      spine (reconstruct_path n) = (n.puzzle :: n.ancestors).reverse ∧
      (spine (reconstruct_path n)).length = n.ancestors.length + 1 ∧
      (spine (reconstruct_path n)).head? = some p ∧
      (spine (reconstruct_path n)).getLast? = some n.puzzle ∧
      P.is_solved n.puzzle = true) ∧
    (∀ n, bfsRun P fuel [rootNode p] [] = some (some n) →
      breadth_first_solve P fuel p = some (some (reconstruct_path n)) ∧
      spine (reconstruct_path n) = (n.puzzle :: n.ancestors).reverse ∧
      (spine (reconstruct_path n)).length = n.ancestors.length + 1 ∧
      (spine (reconstruct_path n)).head? = some p ∧
      (spine (reconstruct_path n)).getLast? = some n.puzzle ∧
      P.is_solved n.puzzle = true) := by
  refine ⟨depth_first_solve_of_run_none, breadth_first_solve_of_run_none, ?_, ?_⟩
  · intro n hrun
    obtain ⟨hsolved, hchain⟩ :=
      dfsRun_sound P p fuel [rootNode p] [] n (rootNode_chain P p) hrun
    refine ⟨depth_first_solve_of_run_some hrun, ?_, length_spine_reconstruct_path n,
      ?_, ?_, hsolved⟩
    · rw [spine_reconstruct_path, chainOf]
    · rw [spine_reconstruct_path, chainOf, List.head?_reverse]
      exact hchain.getLast_eq
    · rw [spine_reconstruct_path, chainOf, List.getLast?_reverse]
      rfl
  · intro n hrun
    obtain ⟨hsolved, hchain⟩ :=
      bfsRun_sound P p fuel [rootNode p] [] n (rootNode_chain P p) hrun
    refine ⟨breadth_first_solve_of_run_some hrun, ?_, length_spine_reconstruct_path n,
      ?_, ?_, hsolved⟩
    · rw [spine_reconstruct_path, chainOf]
    · rw [spine_reconstruct_path, chainOf, List.head?_reverse]
      exact hchain.getLast_eq
    · rw [spine_reconstruct_path, chainOf, List.getLast?_reverse]
      rfl

/-- C3 witness: the reconstruction facts at the concrete solved run of
`toyOK`. -/
theorem claim_C3_reconstruction_witness :
    depth_first_solve toyOK 10 0 =
      some (some (reconstruct_path (PNode.mk 1 [0]))) ∧
    (spine (reconstruct_path (PNode.mk (1 : Nat) [0]))).length = 2 := by
  have h := (claim_C3_reconstruction toyOK 10 0).2.2.1 (PNode.mk 1 [0]) (by rfl)
  exact ⟨h.1, h.2.2.1⟩

/-- C5: a puzzle whose initial state is already solved makes both drivers
return, after one dequeue, the root alone: a chain of length one holding
just that state, with an empty successor collection. -/
theorem claim_C5_initial_solved {σ K : Type} [DecidableEq K] (P : PuzzleImpl σ K)
    (p : σ) (fuel : Nat) (hsolved : P.is_solved p = true) :
    depth_first_solve P (fuel + 1) p = some (some (PTree.mk p [])) ∧
    breadth_first_solve P (fuel + 1) p = some (some (PTree.mk p [])) ∧
    spine (PTree.mk p []) = [p] := by
  have hsolved' : P.is_solved (rootNode p).puzzle = true := hsolved
  have hd : dfsRun P (fuel + 1) [rootNode p] [] = some (some (rootNode p)) := by
    simp only [dfsRun]
    rw [if_neg (List.not_mem_nil _), if_pos hsolved']
  have hb : bfsRun P (fuel + 1) [rootNode p] [] = some (some (rootNode p)) := by
    simp only [bfsRun]
    rw [if_neg (List.not_mem_nil _), if_pos hsolved']
  refine ⟨?_, ?_, by simp [spine]⟩
  · rw [depth_first_solve_of_run_some hd]
    rfl
  · rw [breadth_first_solve_of_run_some hb]
    rfl

/-- C5 witness: `toyOK` with the already-solved initial state `1`. -/
theorem claim_C5_initial_solved_witness :
    toyOK.is_solved 1 = true ∧
    depth_first_solve toyOK 6 1 = some (some (PTree.mk 1 [])) ∧
    breadth_first_solve toyOK 6 1 = some (some (PTree.mk 1 [])) := by
  have h := claim_C5_initial_solved toyOK 1 5 (by decide)
  exact ⟨by decide, h.1, h.2.1⟩

/-- C6: a puzzle whose initial state is unsolved and has no successors
exhausts the frontier in both drivers, which return the explicit absence
value (whatever `fail_fast` answers on the initial state). -/
theorem claim_C6_no_solution {σ K : Type} [DecidableEq K] (P : PuzzleImpl σ K)
    (p : σ) (fuel : Nat) (hunsolved : P.is_solved p = false)
    (hext : P.extensions p = []) :
    depth_first_solve P (fuel + 2) p = some none ∧
    breadth_first_solve P (fuel + 2) p = some none := by
  have hnotsolved : ¬ (P.is_solved (rootNode p).puzzle = true) := by
    simp [rootNode, hunsolved]
  have hd : dfsRun P (fuel + 2) [rootNode p] [] = some none := by
    show dfsRun P (fuel + 1 + 1) [rootNode p] [] = some none
    simp only [dfsRun]
    rw [if_neg (List.not_mem_nil _), if_neg hnotsolved]
    by_cases hf : P.fail_fast (rootNode p).puzzle
    · rw [if_pos hf]
    · rw [if_neg hf]
      have hext' : P.extensions (rootNode p).puzzle = [] := hext
      rw [hext']
      simp
  have hb : bfsRun P (fuel + 2) [rootNode p] [] = some none := by
    show bfsRun P (fuel + 1 + 1) [rootNode p] [] = some none
    simp only [bfsRun]
    rw [if_neg (List.not_mem_nil _), if_neg hnotsolved]
    by_cases hf : P.fail_fast (rootNode p).puzzle
    · rw [if_pos hf]
    · rw [if_neg hf]
      have hext' : P.extensions (rootNode p).puzzle = [] := hext
      rw [hext']
      simp
  exact ⟨depth_first_solve_of_run_none hd, breadth_first_solve_of_run_none hb⟩

/-- C6 witness: the successor-free unsolved puzzle `toyStuck`. -/
theorem claim_C6_no_solution_witness :
    toyStuck.is_solved 0 = false ∧ toyStuck.extensions 0 = [] ∧
    depth_first_solve toyStuck 5 0 = some none ∧
    breadth_first_solve toyStuck 5 0 = some none := by
  have h := claim_C6_no_solution toyStuck 0 3 (by decide) rfl
  exact ⟨by decide, rfl, h.1, h.2⟩

/-- C7: `fail_fast` defaults to false for implementations that leave the
field out; in both drivers `fail_fast` is only ever evaluated on a key
whose `is_solved` evaluation returned false (solved check comes first),
`extensions` is only called on a key whose `fail_fast` evaluation returned
false, and a true `fail_fast` excludes any `extensions` call for that
key — the node is discarded unexpanded. -/
theorem claim_C7_fail_fast_order {σ K : Type} [DecidableEq K] (P : PuzzleImpl σ K)
    (r : σ) (fuel : Nat) :
    (∀ (E : σ → List σ) (S : σ → Bool) (R : σ → K) (s : σ),
      ({ extensions := E, is_solved := S, render := R } : PuzzleImpl σ K).fail_fast s
        = false) ∧
    (∀ k b, SearchEvt.evalFailFast k b ∈ (dfsRunT P fuel [rootNode r] [] []).2.2 →
      SearchEvt.evalSolved k false ∈ (dfsRunT P fuel [rootNode r] [] []).2.2) ∧
    (∀ k, SearchEvt.callExtensions k ∈ (dfsRunT P fuel [rootNode r] [] []).2.2 →
      SearchEvt.evalFailFast k false ∈ (dfsRunT P fuel [rootNode r] [] []).2.2) ∧
    (∀ k, SearchEvt.evalFailFast k true ∈ (dfsRunT P fuel [rootNode r] [] []).2.2 →
      SearchEvt.callExtensions k ∉ (dfsRunT P fuel [rootNode r] [] []).2.2) ∧
    (∀ k b, SearchEvt.evalFailFast k b ∈ (bfsRunT P fuel [rootNode r] [] []).2.2 →
      SearchEvt.evalSolved k false ∈ (bfsRunT P fuel [rootNode r] [] []).2.2) ∧
    (∀ k, SearchEvt.callExtensions k ∈ (bfsRunT P fuel [rootNode r] [] []).2.2 →
      SearchEvt.evalFailFast k false ∈ (bfsRunT P fuel [rootNode r] [] []).2.2) ∧
    (∀ k, SearchEvt.evalFailFast k true ∈ (bfsRunT P fuel [rootNode r] [] []).2.2 →
      SearchEvt.callExtensions k ∉ (bfsRunT P fuel [rootNode r] [] []).2.2) := by
  have hd := dfsRunT_loginv P fuel [rootNode r] [] [] LogInv.empty
  have hb := bfsRunT_loginv P fuel [rootNode r] [] [] LogInv.empty
  exact ⟨fun E S R s => rfl, hd.ordFS, hd.ordXF, hd.pruneStops,
    hb.ordFS, hb.ordXF, hb.pruneStops⟩

/-- C7 witness: on `toyBad` the breadth-first loop evaluates `fail_fast`
on key `1` to true, and `extensions` is never called on that key; and the
default `fail_fast` of `toyOK` (which omits the field) is false. -/
theorem claim_C7_fail_fast_order_witness :
    SearchEvt.evalFailFast 1 true ∈ (bfsRunT toyBad 20 [rootNode 0] [] []).2.2 ∧
    SearchEvt.callExtensions 1 ∉ (bfsRunT toyBad 20 [rootNode 0] [] []).2.2 ∧
    toyOK.fail_fast 0 = false := by
  refine ⟨by decide, ?_, ?_⟩
  · exact (claim_C7_fail_fast_order toyBad 0 20).2.2.2.2.2.2 1 (by decide)
  · exact (claim_C7_fail_fast_order toyBad 0 20).1
      (fun s => if s = 0 then [1] else []) (fun s => s == 1) id 0

/-- C8: no canonical key occurs twice among the states of a solution
chain returned by either driver. -/
theorem claim_C8_chain_nodup {σ K : Type} [DecidableEq K] (P : PuzzleImpl σ K)
    (fuel : Nat) (p : σ) :
    (∀ t, depth_first_solve P fuel p = some (some t) →
      ((spine t).map P.render).Nodup) ∧
    (∀ t, breadth_first_solve P fuel p = some (some t) →
      ((spine t).map P.render).Nodup) := by
  constructor
  · intro t ht
    obtain ⟨n, hrun, rfl⟩ := depth_first_solve_some_inv ht
    rw [spine_reconstruct_path]
    exact dfsRun_nodup P fuel [rootNode p] [] n (rootNode_ancok P p) hrun
  · intro t ht
    obtain ⟨n, hrun, rfl⟩ := breadth_first_solve_some_inv ht
    rw [spine_reconstruct_path]
    exact bfsRun_nodup P fuel [rootNode p] [] n (rootNode_ancok P p) hrun

/-- C8 witness: the dedup invariant on the concrete chain returned for
`toyOK`. -/
theorem claim_C8_chain_nodup_witness :
    ((spine (PTree.mk (0 : Nat) [PTree.mk 1 []])).map toyOK.render).Nodup :=
  (claim_C8_chain_nodup toyOK 10 0).1 (PTree.mk 0 [PTree.mk 1 []]) (by rfl)

/-- C4, counterexample to the claim as stated: the star must travel a
Manhattan distance of three in scenario A, so no two-move solution exists;
breadth-first search returns a chain of length 4, not 3. -/
theorem claim_C4_counterexample :
    (breadth_first_solve mnImpl 10 startP).map
      (Option.map (fun t => (spine t).length)) = some (some 4) ∧
    (4 : Nat) ≠ 3 := by
  exact ⟨by decide, by decide⟩

/-- C4 (amended): in scenario A, breadth-first search returns a chain of
length 4 (three moves) and depth-first search returns a chain of length
at least 3 (here, exactly 62). -/
theorem claim_C4_scenario_a :
    (breadth_first_solve mnImpl 10 startP).map
      (Option.map (fun t => (spine t).length)) = some (some 4) ∧
    (depth_first_solve mnImpl 75 startP).map
      (Option.map (fun t => (spine t).length)) = some (some 62) ∧
    (3 : Nat) ≤ 62 := by
  exact ⟨by decide, by decide, by decide⟩

/-- C9: `equal_grids` zips the rows pairwise, so it holds exactly when the
common prefix of rows agrees, ignoring extra rows of the longer grid;
consequently `is_solved` and the puzzle equality accept grids of differing
row counts whenever one grid's rows are a prefix of the other's. -/
theorem claim_C9_equal_grids :
    (∀ g1 g2 : Grid, equal_grids g1 g2 = true ↔
      ∀ i, i < min g1.length g2.length → g1.getD i [] = g2.getD i []) ∧
    (∀ g extra : Grid, equal_grids g (g ++ extra) = true ∧
      equal_grids (g ++ extra) g = true) ∧
    (∀ fromG extra : Grid,
      MNPuzzle.is_solved ⟨fromG, fromG ++ extra⟩ = true) ∧
    (∀ f t e1 e2 : Grid, MNPuzzle.eq ⟨f, t⟩ ⟨f ++ e1, t ++ e2⟩ = true ∧
      MNPuzzle.eq ⟨f ++ e1, t ++ e2⟩ ⟨f, t⟩ = true) := by
  refine ⟨equal_grids_iff,
    fun g extra => ⟨equal_grids_refl_append g extra, equal_grids_append_left g extra⟩,
    ?_, ?_⟩
  · intro fromG extra
    simpa [MNPuzzle.is_solved] using equal_grids_refl_append fromG extra
  · intro f t e1 e2
    constructor <;>
      simp [MNPuzzle.eq, equal_grids_refl_append, equal_grids_append_left]

/-- C9 witness: a one-row grid is "solved" against a two-row goal whose
first row matches. -/
theorem claim_C9_equal_grids_witness :
    MNPuzzle.is_solved
      ⟨[['1', '2', '3']], [['1', '2', '3'], ['4', '5', '*']]⟩ = true :=
  claim_C9_equal_grids.2.2.1 [['1', '2', '3']] [['4', '5', '*']]

/-- C10: on a wellformed grid, `extensions` completes (returns a value)
exactly when the grid contains a star; with no star the error branch is
reached (`find_first` yields the absent value, embedded as `none`); with a
star at the first position `rc` found, the result is one successor per
valid candidate position, each obtained by swapping the star with that
position's symbol and leaving every other cell and the goal grid
untouched. -/
theorem claim_C10_extensions_safety (p : MNPuzzle)
    (hwf : ∀ row ∈ p.from_grid, row.length = p.m) :
    ((MNPuzzle.extensions p).isSome = true ↔ ∃ row ∈ p.from_grid, '*' ∈ row) ∧
    ((∀ row ∈ p.from_grid, '*' ∉ row) → MNPuzzle.extensions p = none) ∧
    (∀ rc, find_first p.from_grid '*' = some rc →
      get2d p.from_grid rc = '*' ∧
      MNPuzzle.extensions p =
        some ((mnValid p rc).map (fun c => p.swap rc (c.1.toNat, c.2.toNat))) ∧
      (mnValid p rc).length ≤ 4 ∧
      ∀ c ∈ mnValid p rc,
        (c.1.toNat, c.2.toNat) ≠ rc ∧
        (c.1.toNat + c.2.toNat + 1 = rc.1 + rc.2 ∨
          rc.1 + rc.2 + 1 = c.1.toNat + c.2.toNat) ∧
        get2d (p.swap rc (c.1.toNat, c.2.toNat)).from_grid rc =
          get2d p.from_grid (c.1.toNat, c.2.toNat) ∧
        get2d (p.swap rc (c.1.toNat, c.2.toNat)).from_grid
          (c.1.toNat, c.2.toNat) = '*' ∧
        (∀ rc', rc' ≠ rc → rc' ≠ (c.1.toNat, c.2.toNat) →
          get2d (p.swap rc (c.1.toNat, c.2.toNat)).from_grid rc' =
            get2d p.from_grid rc') ∧
        (p.swap rc (c.1.toNat, c.2.toNat)).to_grid = p.to_grid) := by
  refine ⟨?_, extensions_none_of_no_star, ?_⟩
  · cases hf : find_first p.from_grid '*' with
    | none =>
      rw [MNPuzzle.extensions, hf]
      refine iff_of_false (by simp) ?_
      rintro ⟨row, hrow, hstar⟩
      exact (find_first_eq_none_iff _ _).1 hf row hrow hstar
    | some rc =>
      obtain ⟨hr, hc, hget, _, _⟩ := find_first_spec hf
      rw [MNPuzzle.extensions, hf]
      refine iff_of_true rfl ⟨p.from_grid.getD rc.1 [], ?_, ?_⟩
      · rw [List.getD_eq_getElem?_getD, List.getElem?_eq_getElem hr]
        exact List.getElem_mem hr
      · rw [List.getD_eq_getElem?_getD, List.getElem?_eq_getElem hc] at hget
        exact hget ▸ List.getElem_mem hc
  · intro rc hf
    obtain ⟨hr, hc, hget, _, _⟩ := find_first_spec hf
    refine ⟨hget, extensions_eq_of_find hf, ?_, ?_⟩
    · have hle : (mnValid p rc).length ≤ (mnCandidates rc).length :=
        List.length_filter_le _ _
      simpa [mnCandidates] using hle
    · intro c hcmem
      obtain ⟨hb1, hb2, hne, hadj⟩ := mnValid_spec p rc c hcmem
      have hs1 : (c.1.toNat, c.2.toNat).1 < p.from_grid.length := hb1
      have hs2 : (c.1.toNat, c.2.toNat).2 <
          (p.from_grid.getD (c.1.toNat, c.2.toNat).1 []).length := by
        rw [row_length_of_wf hwf hs1]
        exact hb2
      obtain ⟨hswap1, hswap2, hswap3⟩ :=
        swap_spec p rc (c.1.toNat, c.2.toNat) (fun h => hne h.symm) hr hc hs1 hs2
      exact ⟨hne, hadj, hswap1, hswap2, hswap3,
        swap_to_grid p rc (c.1.toNat, c.2.toNat)⟩

/-- C10 witness: the safety characterization on the scenario A puzzle. -/
theorem claim_C10_extensions_safety_witness :
    (∀ row ∈ startP.from_grid, row.length = startP.m) ∧
    ((MNPuzzle.extensions startP).isSome = true ↔
      ∃ row ∈ startP.from_grid, '*' ∈ row) :=
  ⟨by decide, (claim_C10_extensions_safety startP (by decide)).1⟩

end Claims
